import Mathlib

/-!
# amiConnect: the protocol engine of `amiAdapter.go`

A shallow embedding of the Go source `src/amiAdapter.go` and theorems about it.

* Go `byte` values are natural numbers (the code only compares bytes for equality,
  so no arithmetic and no wrap-around is involved); a Go `string` is a list of bytes.
* A Go `map[string]string` is an association list with pairwise distinct keys.
  The iteration order of `range` is not fixed by Go, so every function that ranges
  over a map takes the visiting order as an explicit argument.
* The goroutine of `streamParser` is an endless loop reading one byte per round from
  a channel; it is embedded as the function `step` for one round of the loop and
  `feed` for a finite run of rounds, returning the records sent on `chanOut` in order.
-/

namespace AmiConnect

/-! ## Bytes, strings and maps -/

/-- A Go `byte`. Only equality tests are ever applied to it in the source. -/
abbrev Byte := Nat

/-- A Go `string`: a finite sequence of bytes. -/
abbrev Str := List Byte

/-- The bytes of an ASCII literal (for ASCII text the code points are the bytes). -/
def bytes (s : String) : Str := s.toList.map Char.toNat

/-- A Go `map[string]string`, as an association list. -/
abbrev GoMap := List (Str × Str)

namespace GoMap

/-- The keys of a map, in the order of the association list. -/
def keys (m : GoMap) : List Str := m.map Prod.fst

/-- Well-formed maps have pairwise distinct keys. -/
def WF (m : GoMap) : Prop := (keys m).Nodup

instance (m : GoMap) : Decidable (WF m) := inferInstanceAs (Decidable (keys m).Nodup)

/-- The two-valued index expression `v, ok := m[k]`. -/
def find : GoMap → Str → Option Str
  | [], _ => none
  | (k', v) :: rest, k => if k' = k then some v else find rest k

/-- The index expression `m[k]`: the empty string when the key is absent. -/
def index (m : GoMap) (k : Str) : Str := (find m k).getD []

/-- Whether the key is present in the map. -/
def has (m : GoMap) (k : Str) : Bool := (find m k).isSome

/-- The assignment `m[k] = v`: overwrite the entry of `k`, or add one. -/
def assign : GoMap → Str → Str → GoMap
  | [], k, v => [(k, v)]
  | (k', v') :: rest, k, v =>
    if k' = k then (k, v) :: rest else (k', v') :: assign rest k v

end GoMap

/-! ## `streamParser` -/

/-- The variables captured by the goroutine of `streamParser`. -/
structure PState where
  /-- Variable `data`, the record in progress. -/
  data : GoMap
  /-- Variable `wordBuf`, the bytes buffer. -/
  wordBuf : Str
  /-- Variable `key`. -/
  key : Str
  /-- Variable `value`. -/
  value : Str
  /-- Variable `lastByte`. -/
  lastByte : Byte
  /-- Variable `curByte`. -/
  curByte : Byte
  /-- Variable `state`: 0 is the key state, 1 the value state. -/
  state : Nat
  deriving DecidableEq, Repr

/-- The values of the variables when the goroutine starts. -/
def PState.init : PState :=
  { data := [], wordBuf := [], key := [], value := [], lastByte := 0, curByte := 0, state := 0 }

/-- One round of the `for` loop of `streamParser` on the byte `b` received from `in`:
the new values of the variables and the record sent on `chanOut` in this round, if any.
Byte values: 58 is `':'`, 10 is `'\n'`, 32 is `' '`, 13 is `'\r'`. -/
def step (s : PState) (b : Byte) : PState × Option GoMap :=
  let s := { s with lastByte := s.curByte, curByte := b }
  if b = 58 ∨ b = 10 then (s, none)
  else if s.state = 0 then
    if b = 32 then
      if s.lastByte = 58 then
        ({ s with key := s.wordBuf, wordBuf := [], state := 1 }, none)
      else (s, none)
    else if b = 13 then
      if s.value.length > 0 then
        ({ data := [], wordBuf := [], key := [], value := [],
           lastByte := 0, curByte := 0, state := 0 }, some s.data)
      else
        ({ data := s.data, wordBuf := [], key := [], value := [],
           lastByte := 0, curByte := 0, state := 0 }, none)
    else ({ s with wordBuf := s.wordBuf ++ [b] }, none)
  else if s.state = 1 then
    if b = 13 then
      ({ s with value := s.wordBuf, wordBuf := [], state := 0,
                data := GoMap.assign s.data s.key s.wordBuf }, none)
    else ({ s with wordBuf := s.wordBuf ++ [b] }, none)
  else (s, none)

/-- Run the loop of `streamParser` over the bytes `input` from the variables `s`:
the final variables and the records sent on `chanOut`, in sending order. -/
def feed (s : PState) : List Byte → PState × List GoMap
  | [] => (s, [])
  | b :: rest =>
    ((feed (step s b).1 rest).1, (step s b).2.toList ++ (feed (step s b).1 rest).2)

/-- The records `streamParser` sends on `chanOut` when the bytes `input` arrive on `in`. -/
def streamParser (input : List Byte) : List GoMap := (feed PState.init input).2

/-- The wire line of one field: `key: value\r\n`. -/
def fieldLine (f : Str × Str) : List Byte := f.1 ++ [58, 32] ++ f.2 ++ [13, 10]

/-- The wire lines of a list of fields, one after the other. -/
def fieldLines (fields : List (Str × Str)) : List Byte := fields.flatMap fieldLine

/-- A frame on the wire: the lines of its fields and the blank line `\r\n`. -/
def frame (fields : List (Str × Str)) : List Byte := fieldLines fields ++ [13, 10]

/-- A key as the wire format expects it: no colon, space, carriage return or newline. -/
def plainKey (k : Str) : Prop := 58 ∉ k ∧ 32 ∉ k ∧ 13 ∉ k ∧ 10 ∉ k

/-- A value free of colon, carriage return and newline. -/
def plainValue (v : Str) : Prop := 58 ∉ v ∧ 13 ∉ v ∧ 10 ∉ v

instance (k : Str) : Decidable (plainKey k) :=
  inferInstanceAs (Decidable (58 ∉ k ∧ 32 ∉ k ∧ 13 ∉ k ∧ 10 ∉ k))

instance (v : Str) : Decidable (plainValue v) :=
  inferInstanceAs (Decidable (58 ∉ v ∧ 13 ∉ v ∧ 10 ∉ v))

/-- The bytes of `l` contain neither a colon nor a newline. -/
def noColonNewline (l : Str) : Prop := 58 ∉ l ∧ 10 ∉ l

instance (l : Str) : Decidable (noColonNewline l) :=
  inferInstanceAs (Decidable (58 ∉ l ∧ 10 ∉ l))

/-- The bytes of a value that reach the buffer: colons and newlines are skipped. -/
def kept (v : Str) : Str := v.filter (fun b => decide (¬ (b = 58 ∨ b = 10)))

/-- The record in progress after the lines of `fields` were read with `m` in progress. -/
def stored (m : GoMap) (fields : List (Str × Str)) : GoMap :=
  fields.foldl (fun acc f => GoMap.assign acc f.1 (kept f.2)) m

/-- The variable `value` after the lines of `fields` were read, `v` being its value before. -/
def lastKept (v : Str) (fields : List (Str × Str)) : Str :=
  fields.foldl (fun _ f => kept f.2) v

/-! ## `classifier` -/

/-- The two channels `classifier` sends on. -/
inductive Dest where
  /-- Channel `chanOutResponses`. -/
  | responses
  /-- Channel `chanOutEvents`. -/
  | events
  deriving DecidableEq, Repr

/-- The body of the `range` loop of `classifier` for the key `d`: the sends it makes.
In Go a `break` inside a `switch` case leaves the `switch`, not the enclosing `for`,
so the loop goes on to the next key after either case. -/
def classifierCase (data : GoMap) (d : Str) : List (Dest × GoMap) :=
  if d = bytes "Response" then [(Dest.responses, data)]
  else if d = bytes "Event" then [(Dest.events, data)]
  else []

/-- The sends `classifier` makes for one record `data`, when `range data` visits the keys
in the order `order`. -/
def classifier (order : List Str) (data : GoMap) : List (Dest × GoMap) :=
  order.flatMap (classifierCase data)

/-! ## `serialize` -/

/-- The function `serialize`, when `range data` visits the keys in the order `order`:
`outBuf` receives `key`, `": "`, `data[key]` and `"\n"` for every key, then `"\n"`. -/
def serialize (order : List Str) (data : GoMap) : List Byte :=
  order.foldl
    (fun outBuf key => outBuf ++ key ++ bytes ": " ++ GoMap.index data key ++ bytes "\n") []
  ++ bytes "\n"

/-! ## `Exec` and `Login` -/

/-- The struct `AMIAdapter`; a channel is represented by an identifier. -/
structure AMIAdapter where
  /-- Field `ip`. -/
  ip : Str
  /-- Field `username`. -/
  username : Str
  /-- Field `password`. -/
  password : Str
  /-- Field `chanActions`. -/
  chanActions : Nat
  /-- Field `chanResponses`. -/
  chanResponses : Nat
  /-- Field `chanEvents`. -/
  chanEvents : Nat
  deriving DecidableEq, Repr

/-- The other ends of the adapter's channels, as seen by a caller of `Exec`: the actions
received so far from `chanActions`, and the records that the classifier is going to send on
`chanResponses`, in order. -/
structure Pipeline where
  /-- Actions taken from `chanActions`, oldest first. -/
  sent : List GoMap
  /-- Records still to come on `chanResponses`, next first. -/
  responses : List GoMap
  deriving DecidableEq, Repr

/-- The method `Exec`: send `action` on `chanActions`, then receive one record from
`chanResponses` and return it. The result is the pipeline after the call and the returned
record. The record is `none` when no record ever arrives: the action has been sent and the
receive blocks for ever. -/
def Exec (p : Pipeline) (action : GoMap) : Pipeline × Option GoMap :=
  match p.responses with
  | [] => ({ sent := p.sent ++ [action], responses := [] }, none)
  | r :: rest => ({ sent := p.sent ++ [action], responses := rest }, some r)

/-- What `Login` returns: the channel (`none` is `nil`) and the error text (`none` is `nil`). -/
structure LoginResult where
  /-- The returned channel. -/
  chan : Option Nat
  /-- The returned error. -/
  err : Option Str
  deriving DecidableEq, Repr

/-- The method `Login`: the adapter after the call, the pipeline after the call and the
returned pair. The credentials are stored before `Exec` is called; the returned pair is `none`
when the call of `Exec` never returns. -/
def Login (a : AMIAdapter) (username password : Str) (p : Pipeline) :
    AMIAdapter × Pipeline × Option LoginResult :=
  let a := { a with username := username, password := password }
  let action : GoMap :=
    [(bytes "Action", bytes "Login"), (bytes "Username", a.username),
     (bytes "Secret", a.password)]
  match Exec p action with
  | (p, none) => (a, p, none)
  | (p, some result) =>
    if GoMap.index result (bytes "Response") = bytes "Error" then
      (a, p, some { chan := none,
                    err := some (bytes "Login failed: " ++
                      GoMap.index result (bytes "Message")) })
    else
      (a, p, some { chan := some a.chanEvents, err := none })

/-! ## Relating runs of `streamParser` -/

/-- The two valuations agree on every variable but `lastByte` and `curByte`. -/
def sameVars (s t : PState) : Prop :=
  s.data = t.data ∧ s.wordBuf = t.wordBuf ∧ s.key = t.key ∧ s.value = t.value ∧
    s.state = t.state

/-- The input without its newline bytes. -/
def dropNewlines (input : List Byte) : List Byte := input.filter (fun b => decide (b ≠ 10))

/-- Whether the bytes begin with one or more newlines followed by a space. -/
def newlinesThenSpace : List Byte → Bool
  | [] => false
  | b :: rest => decide (b = 10) && (decide (rest.head? = some 32) || newlinesThenSpace rest)

/-- Whether some colon is followed by one or more newlines and then a space. -/
def separatorSplit : List Byte → Bool
  | [] => false
  | b :: rest => (decide (b = 58) && newlinesThenSpace rest) || separatorSplit rest

/-- Whether some colon is immediately followed by a space. -/
def hasSeparator : List Byte → Bool
  | [] => false
  | b :: rest => (decide (b = 58) && decide (rest.head? = some 32)) || hasSeparator rest

/-- The field mapping of a frame: its fields assigned in order to an empty map. -/
def recordOf (fields : List (Str × Str)) : GoMap :=
  fields.foldl (fun acc f => GoMap.assign acc f.1 f.2) []

/-- The bytes of a list of frames, one after the other. -/
def frames (fs : List (List (Str × Str))) : List Byte := fs.flatMap frame

/-- The caller of the sequential-calls property: `Exec` is called for each action in turn,
the next call being made when the previous one has returned. The result is the pipeline at
the end and the list of the returned records, `none` when some call never returns. -/
def execEach (p : Pipeline) : List GoMap → Pipeline × Option (List GoMap)
  | [] => (p, some [])
  | action :: rest =>
    match Exec p action with
    | (p1, none) => (p1, none)
    | (p1, some r) =>
      match execEach p1 rest with
      | (p2, none) => (p2, none)
      | (p2, some rs) => (p2, some (r :: rs))

/-! ## The reconnect loop of `NewAMIAdapter` -/

/-- How the reconnect loop ends. -/
inductive LoopEnd where
  /-- The branch `i == 0`: `log.Fatalln("Reconnect failed 100 times. Give up!")`. -/
  | gaveUp
  /-- The branch `log.Fatalln("Login failed!")`. -/
  | loginFailed
  /-- The `break` after a successful `Login`. -/
  | reconnected
  /-- The call of `Login` never returns. -/
  | blocked
  deriving DecidableEq, Repr

/-- The outcome of the reconnect loop. -/
structure LoopResult where
  /-- How the loop ended. -/
  ending : LoopEnd
  /-- The number of calls of `openConnection` made by the loop. -/
  attempts : Nat
  /-- The actions taken from `chanActions` by the end of the loop. -/
  sent : List GoMap
  deriving DecidableEq, Repr

/-- The loop `for i := 100; i >= 0; i--` of `NewAMIAdapter`, from the counter value `i`, when
`n` calls of `openConnection` were made before. `dial k` tells whether the `k`-th call of
`openConnection` (counted from 1) succeeds. At `i == 0` the loop calls `log.Fatalln`, which
ends the process, so the counter never goes below zero. -/
def reconnectLoop (dial : Nat → Bool) (a : AMIAdapter) (p : Pipeline) : Nat → Nat → LoopResult
  | 0, n => { ending := LoopEnd.gaveUp, attempts := n, sent := p.sent }
  | i + 1, n =>
    if dial (n + 1) then
      match Login a a.username a.password p with
      | (_, p1, none) => { ending := LoopEnd.blocked, attempts := n + 1, sent := p1.sent }
      | (_, p1, some res) =>
        if res.err.isSome then
          { ending := LoopEnd.loginFailed, attempts := n + 1, sent := p1.sent }
        else { ending := LoopEnd.reconnected, attempts := n + 1, sent := p1.sent }
    else reconnectLoop dial a p i (n + 1)

/-- The reconnect loop as `NewAMIAdapter` starts it: the counter is 100 and no call of
`openConnection` was made yet. -/
def reconnect (dial : Nat → Bool) (a : AMIAdapter) (p : Pipeline) : LoopResult :=
  reconnectLoop dial a p 100 0

/-! ## Facts about maps -/

theorem GoMap.find_assign (m : GoMap) (k v k' : Str) :
    GoMap.find (GoMap.assign m k v) k' = if k = k' then some v else GoMap.find m k' := by
  induction m with
  | nil => simp [GoMap.assign, GoMap.find]
  | cons e rest ih =>
    obtain ⟨ke, ve⟩ := e
    by_cases h : ke = k
    · subst h
      by_cases h2 : ke = k' <;> simp [GoMap.assign, GoMap.find, h2]
    · by_cases h2 : ke = k'
      · subst h2
        have h3 : ¬ k = ke := fun h4 => h h4.symm
        simp [GoMap.assign, GoMap.find, h, h3]
      · simp [GoMap.assign, GoMap.find, h, h2, ih]

theorem GoMap.keys_assign (m : GoMap) (k v : Str) :
    GoMap.keys (GoMap.assign m k v) =
      if k ∈ GoMap.keys m then GoMap.keys m else GoMap.keys m ++ [k] := by
  induction m with
  | nil => simp [GoMap.assign, GoMap.keys]
  | cons e rest ih =>
    obtain ⟨ke, ve⟩ := e
    by_cases h : ke = k
    · subst h
      simp [GoMap.assign, GoMap.keys]
    · have h3 : ¬ k = ke := fun h4 => h h4.symm
      simp only [GoMap.keys] at ih
      by_cases h5 : k ∈ List.map Prod.fst rest
      · simp [GoMap.assign, GoMap.keys, h, h3, ih, h5]
      · simp [GoMap.assign, GoMap.keys, h, h3, ih, h5]

theorem GoMap.wf_assign (m : GoMap) (k v : Str) (h : GoMap.WF m) :
    GoMap.WF (GoMap.assign m k v) := by
  unfold GoMap.WF at *
  rw [GoMap.keys_assign]
  by_cases hk : k ∈ GoMap.keys m
  · simpa [hk] using h
  · simp only [hk, if_false]
    exact List.Nodup.append h (List.nodup_singleton k) (by simpa using hk)

theorem GoMap.assign_ne_nil (m : GoMap) (k v : Str) : GoMap.assign m k v ≠ [] := by
  cases m with
  | nil => simp [GoMap.assign]
  | cons e rest =>
    obtain ⟨ke, ve⟩ := e
    by_cases h : ke = k <;> simp [GoMap.assign, h]

theorem GoMap.mem_assign (m : GoMap) (k v : Str) (e : Str × Str)
    (h : e ∈ GoMap.assign m k v) : e ∈ m ∨ e = (k, v) := by
  induction m with
  | nil => simpa [GoMap.assign] using h
  | cons e' rest ih =>
    obtain ⟨ke, ve⟩ := e'
    by_cases hk : ke = k
    · simp only [GoMap.assign, hk, if_true, List.mem_cons] at h
      rcases h with h | h
      · exact Or.inr h
      · exact Or.inl (List.mem_cons_of_mem _ h)
    · simp only [GoMap.assign, hk, if_false, List.mem_cons] at h
      rcases h with h | h
      · exact Or.inl (by simp [h])
      · rcases ih h with h2 | h2
        · exact Or.inl (List.mem_cons_of_mem _ h2)
        · exact Or.inr h2

theorem GoMap.find_eq_some_of_mem (m : GoMap) (h : GoMap.WF m) (e : Str × Str) (he : e ∈ m) :
    GoMap.find m e.1 = some e.2 := by
  induction m with
  | nil => simp at he
  | cons e' rest ih =>
    obtain ⟨ke, ve⟩ := e'
    have hnd : ke ∉ GoMap.keys rest ∧ GoMap.WF rest := by
      simpa [GoMap.WF, GoMap.keys] using h
    rcases List.mem_cons.mp he with h1 | h1
    · subst h1
      simp [GoMap.find]
    · have hne : ke ≠ e.1 := by
        intro h2
        apply hnd.1
        rw [h2]
        exact List.mem_map_of_mem Prod.fst h1
      simp [GoMap.find, hne, ih hnd.2 h1]

theorem GoMap.has_iff_mem_keys (m : GoMap) (k : Str) :
    GoMap.has m k = true ↔ k ∈ GoMap.keys m := by
  induction m with
  | nil => simp [GoMap.has, GoMap.find, GoMap.keys]
  | cons e rest ih =>
    obtain ⟨ke, ve⟩ := e
    by_cases h : ke = k
    · simp [GoMap.has, GoMap.find, GoMap.keys, h]
    · have h3 : ¬ k = ke := fun h4 => h h4.symm
      simp only [GoMap.has, GoMap.keys] at ih
      simp [GoMap.has, GoMap.find, GoMap.keys, h, h3, ih]

/-! ## Running the parser loop -/

theorem feed_nil (s : PState) : feed s [] = (s, []) := rfl

theorem feed_cons (s : PState) (b : Byte) (rest : List Byte) :
    feed s (b :: rest) =
      ((feed (step s b).1 rest).1, (step s b).2.toList ++ (feed (step s b).1 rest).2) := rfl

theorem feed_append (s : PState) (xs ys : List Byte) :
    feed s (xs ++ ys) =
      ((feed (feed s xs).1 ys).1, (feed s xs).2 ++ (feed (feed s xs).1 ys).2) := by
  induction xs generalizing s with
  | nil => simp [feed_nil]
  | cons b rest ih => simp [feed_cons, ih, List.append_assoc]

/-- A property of the variables kept by every round, which makes every sent record
satisfy `Q`, holds after any run and makes all sent records satisfy `Q`. -/
theorem feed_invariant (Inv : PState → Prop) (Q : GoMap → Prop)
    (hstep : ∀ s b, Inv s → Inv (step s b).1 ∧ ∀ r, (step s b).2 = some r → Q r)
    (input : List Byte) (s : PState) (hs : Inv s) :
    Inv (feed s input).1 ∧ ∀ r ∈ (feed s input).2, Q r := by
  induction input generalizing s with
  | nil => simp [feed_nil, hs]
  | cons b rest ih =>
    obtain ⟨h1, h2⟩ := hstep s b hs
    obtain ⟨h3, h4⟩ := ih (step s b).1 h1
    refine ⟨by simpa [feed_cons] using h3, ?_⟩
    intro r hr
    simp only [feed_cons, List.mem_append, Option.mem_toList, Option.mem_def] at hr
    rcases hr with hr | hr
    · exact h2 r hr
    · exact h4 r hr

/-! ## The parser on one wire line -/

theorem feed_key (k : Str) (s : PState) (hs : s.state = 0) (hk : plainKey k) :
    (feed s k).2 = [] ∧ (feed s k).1.state = 0 ∧ (feed s k).1.wordBuf = s.wordBuf ++ k ∧
      (feed s k).1.data = s.data ∧ (feed s k).1.value = s.value := by
  induction k generalizing s with
  | nil => simp [feed_nil, hs]
  | cons b rest ih =>
    obtain ⟨h1, h2, h3, h4⟩ := hk
    simp only [List.mem_cons, not_or] at h1 h2 h3 h4
    have hb1 : ¬ b = 58 := fun h => h1.1 h.symm
    have hb2 : ¬ b = 32 := fun h => h2.1 h.symm
    have hb3 : ¬ b = 13 := fun h => h3.1 h.symm
    have hb4 : ¬ b = 10 := fun h => h4.1 h.symm
    have hst : step s b =
        ({ s with lastByte := s.curByte, curByte := b, wordBuf := s.wordBuf ++ [b] }, none) := by
      simp [step, hs, hb1, hb2, hb3, hb4]
    have := ih { s with lastByte := s.curByte, curByte := b, wordBuf := s.wordBuf ++ [b] } hs
      ⟨h1.2, h2.2, h3.2, h4.2⟩
    simpa [feed_cons, hst] using this

theorem feed_separator (s : PState) (hs : s.state = 0) :
    (feed s [58, 32]).2 = [] ∧ (feed s [58, 32]).1.state = 1 ∧
      (feed s [58, 32]).1.wordBuf = [] ∧ (feed s [58, 32]).1.key = s.wordBuf ∧
      (feed s [58, 32]).1.data = s.data := by
  simp [feed_cons, feed_nil, step, hs]

theorem kept_cons (b : Byte) (rest : Str) :
    kept (b :: rest) = if b = 58 ∨ b = 10 then kept rest else b :: kept rest := by
  by_cases h : b = 58 ∨ b = 10
  · simp only [kept, h, if_true]
    rw [List.filter_cons_of_neg (by simp [h])]
  · simp only [kept, h, if_false]
    rw [List.filter_cons_of_pos (by simp [h])]

theorem feed_value (v : Str) (s : PState) (hs : s.state = 1) (hv : 13 ∉ v) :
    (feed s v).2 = [] ∧ (feed s v).1.state = 1 ∧ (feed s v).1.wordBuf = s.wordBuf ++ kept v ∧
      (feed s v).1.key = s.key ∧ (feed s v).1.data = s.data := by
  induction v generalizing s with
  | nil => simp [feed_nil, hs, kept]
  | cons b rest ih =>
    simp only [List.mem_cons, not_or] at hv
    have hb3 : ¬ b = 13 := fun h => hv.1 h.symm
    by_cases hskip : b = 58 ∨ b = 10
    · have hst : step s b = ({ s with lastByte := s.curByte, curByte := b }, none) := by
        simp [step, hskip]
      have := ih { s with lastByte := s.curByte, curByte := b } hs hv.2
      rw [kept_cons]
      simpa [feed_cons, hst, hskip] using this
    · have hst : step s b =
          ({ s with lastByte := s.curByte, curByte := b, wordBuf := s.wordBuf ++ [b] }, none) := by
        simp [step, hs, hskip, hb3]
      have := ih { s with lastByte := s.curByte, curByte := b, wordBuf := s.wordBuf ++ [b] } hs hv.2
      rw [kept_cons]
      simpa [feed_cons, hst, hskip] using this

theorem feed_lineEnd (s : PState) (hs : s.state = 1) :
    (feed s [13, 10]).2 = [] ∧ (feed s [13, 10]).1.state = 0 ∧
      (feed s [13, 10]).1.wordBuf = [] ∧ (feed s [13, 10]).1.value = s.wordBuf ∧
      (feed s [13, 10]).1.data = GoMap.assign s.data s.key s.wordBuf := by
  simp [feed_cons, feed_nil, step, hs]

/-- One line `key: value\r\n` read at the start of a line stores one field and sends nothing. -/
theorem feed_fieldLine (f : Str × Str) (s : PState) (hs : s.state = 0) (hw : s.wordBuf = [])
    (hk : plainKey f.1) (hv : 13 ∉ f.2) :
    (feed s (fieldLine f)).2 = [] ∧ (feed s (fieldLine f)).1.state = 0 ∧
      (feed s (fieldLine f)).1.wordBuf = [] ∧ (feed s (fieldLine f)).1.value = kept f.2 ∧
      (feed s (fieldLine f)).1.data = GoMap.assign s.data f.1 (kept f.2) := by
  obtain ⟨a1, a2, a3, a4, _⟩ := feed_key f.1 s hs hk
  obtain ⟨b1, b2, b3, b4, b5⟩ := feed_separator (feed s f.1).1 a2
  obtain ⟨c1, c2, c3, c4, c5⟩ := feed_value f.2 (feed (feed s f.1).1 [58, 32]).1 b2 hv
  obtain ⟨d1, d2, d3, d4, d5⟩ := feed_lineEnd (feed (feed (feed s f.1).1 [58, 32]).1 f.2).1 c2
  simp only [fieldLine, feed_append]
  refine ⟨by simp [a1, b1, c1, d1], d2, d3, ?_, ?_⟩
  · rw [d4, c3, b3]; simp
  · rw [d5, c3, c4, c5, b3, b4, b5, a3, a4, hw]; simp

theorem feed_fieldLines (fields : List (Str × Str)) (s : PState) (hs : s.state = 0)
    (hw : s.wordBuf = []) (hf : ∀ f ∈ fields, plainKey f.1 ∧ 13 ∉ f.2) :
    (feed s (fieldLines fields)).2 = [] ∧ (feed s (fieldLines fields)).1.state = 0 ∧
      (feed s (fieldLines fields)).1.wordBuf = [] ∧
      (feed s (fieldLines fields)).1.value = lastKept s.value fields ∧
      (feed s (fieldLines fields)).1.data = stored s.data fields := by
  induction fields generalizing s with
  | nil => simp [fieldLines, feed_nil, hs, hw, lastKept, stored]
  | cons f rest ih =>
    obtain ⟨a1, a2, a3, a4, a5⟩ :=
      feed_fieldLine f s hs hw (hf f (List.mem_cons_self _ _)).1 (hf f (List.mem_cons_self _ _)).2
    obtain ⟨b1, b2, b3, b4, b5⟩ :=
      ih (feed s (fieldLine f)).1 a2 a3 (fun g hg => hf g (List.mem_cons_of_mem _ hg))
    have hsplit : fieldLines (f :: rest) = fieldLine f ++ fieldLines rest := by
      simp [fieldLines]
    rw [hsplit, feed_append]
    refine ⟨by simp [a1, b1], b2, b3, ?_, ?_⟩
    · rw [b4, a4]; simp [lastKept]
    · rw [b5, a5]; simp [stored]

/-! ## Whole frames -/

theorem kept_of_plainValue (v : Str) (h : plainValue v) : kept v = v := by
  induction v with
  | nil => rfl
  | cons b rest ih =>
    obtain ⟨h1, h2, h3⟩ := h
    simp only [List.mem_cons, not_or] at h1 h2 h3
    have hb : ¬ (b = 58 ∨ b = 10) := by
      rintro (h | h)
      · exact h1.1 h.symm
      · exact h3.1 h.symm
    rw [kept_cons, if_neg hb, ih ⟨h1.2, h2.2, h3.2⟩]

theorem stored_of_plain (fields : List (Str × Str)) (m : GoMap)
    (hf : ∀ f ∈ fields, kept f.2 = f.2) :
    stored m fields = fields.foldl (fun acc f => GoMap.assign acc f.1 f.2) m := by
  induction fields generalizing m with
  | nil => rfl
  | cons f rest ih =>
    have h1 := hf f (List.mem_cons_self _ _)
    have h2 := ih (GoMap.assign m f.1 f.2) (fun g hg => hf g (List.mem_cons_of_mem _ hg))
    simp only [stored, List.foldl_cons] at h2 ⊢
    rw [h1]
    exact h2

theorem GoMap.find_append (xs ys : GoMap) (k : Str) :
    GoMap.find (xs ++ ys) k =
      match GoMap.find xs k with
      | some v => some v
      | none => GoMap.find ys k := by
  induction xs with
  | nil => simp [GoMap.find]
  | cons e rest ih =>
    obtain ⟨ke, ve⟩ := e
    by_cases h : ke = k
    · simp [GoMap.find, h]
    · simpa [GoMap.find, h] using ih

theorem GoMap.find_foldl_assign (fields : List (Str × Str)) (m : GoMap) (k : Str) :
    GoMap.find (fields.foldl (fun acc f => GoMap.assign acc f.1 f.2) m) k =
      match GoMap.find fields.reverse k with
      | some v => some v
      | none => GoMap.find m k := by
  induction fields generalizing m with
  | nil => simp [GoMap.find]
  | cons f rest ih =>
    obtain ⟨kf, vf⟩ := f
    rw [List.foldl_cons, ih, List.reverse_cons, GoMap.find_append, GoMap.find_assign]
    cases GoMap.find rest.reverse k with
    | some v => rfl
    | none =>
      by_cases h : kf = k <;> simp [GoMap.find, h]

theorem GoMap.wf_foldl_assign (fields : List (Str × Str)) (m : GoMap) (h : GoMap.WF m) :
    GoMap.WF (fields.foldl (fun acc f => GoMap.assign acc f.1 f.2) m) := by
  induction fields generalizing m with
  | nil => exact h
  | cons f rest ih => exact ih _ (GoMap.wf_assign m f.1 f.2 h)

theorem GoMap.find_eq_none_iff (m : GoMap) (k : Str) :
    GoMap.find m k = none ↔ k ∉ GoMap.keys m := by
  rw [← GoMap.has_iff_mem_keys]
  simp [GoMap.has]

theorem lastKept_ne_nil (fields : List (Str × Str)) (v : Str) (hne : fields ≠ [])
    (hf : ∀ f ∈ fields, kept f.2 ≠ []) : lastKept v fields ≠ [] := by
  induction fields generalizing v with
  | nil => exact absurd rfl hne
  | cons f rest ih =>
    by_cases hr : rest = []
    · subst hr
      simpa [lastKept] using hf f (List.mem_cons_self _ _)
    · have := ih (kept f.2) hr (fun g hg => hf g (List.mem_cons_of_mem _ hg))
      simpa [lastKept] using this

/-- A frame whose last stored value is not empty makes the parser send exactly the record
in progress. -/
theorem streamParser_frame (fields : List (Str × Str))
    (hf : ∀ f ∈ fields, plainKey f.1 ∧ 13 ∉ f.2) (hv : lastKept [] fields ≠ []) :
    streamParser (frame fields) = [stored [] fields] := by
  obtain ⟨a1, a2, a3, a4, a5⟩ := feed_fieldLines fields PState.init rfl rfl hf
  have hv2 : (feed PState.init (fieldLines fields)).1.value ≠ [] := by
    rw [a4]; exact hv
  have hlen : 0 < (feed PState.init (fieldLines fields)).1.value.length :=
    List.length_pos.mpr hv2
  have hdata : (feed PState.init (fieldLines fields)).1.data = stored [] fields := a5
  simp [streamParser, frame, feed_append, a1, feed_cons, feed_nil, step, a2, hlen, hdata]
/-! ## The claims about `streamParser` -/

/-- C1: for every non-empty list of fields whose keys contain no colon, space, carriage
return or newline and whose values are non-empty and contain no colon, carriage return or
newline, `streamParser` fed the frame `k_1: v_1\r\n ... k_n: v_n\r\n\r\n` from its initial
state sends exactly one record; that record has distinct keys, exactly the keys `k_i`, and
maps each key to the value of its last occurrence in the list. In particular the frame
`Response: Success\r\nMessage: ok\r\n\r\n` gives exactly the record
`{Response: Success, Message: ok}`. (Keys need not even be non-empty.) -/
theorem streamParser_frame_one_record :
    (∀ fields : List (Str × Str), fields ≠ [] →
      (∀ f ∈ fields, plainKey f.1 ∧ f.2 ≠ [] ∧ plainValue f.2) →
      ∃ r, streamParser (frame fields) = [r] ∧ GoMap.WF r ∧
        (∀ k, k ∈ GoMap.keys r ↔ k ∈ fields.map Prod.fst) ∧
        (∀ k, GoMap.find r k = GoMap.find fields.reverse k)) ∧
    streamParser (bytes "Response: Success\r\nMessage: ok\r\n\r\n") =
      [[(bytes "Response", bytes "Success"), (bytes "Message", bytes "ok")]] := by
  refine ⟨?_, by decide⟩
  intro fields hne hf
  have hkept : ∀ f ∈ fields, kept f.2 = f.2 := fun f h =>
    kept_of_plainValue f.2 (hf f h).2.2
  have hv : lastKept [] fields ≠ [] :=
    lastKept_ne_nil fields [] hne (fun f h => by rw [hkept f h]; exact (hf f h).2.1)
  have hrun := streamParser_frame fields (fun f h => ⟨(hf f h).1, (hf f h).2.2.2.1⟩) hv
  rw [stored_of_plain fields [] hkept] at hrun
  have hfind : ∀ k, GoMap.find (fields.foldl (fun acc f => GoMap.assign acc f.1 f.2) []) k =
      GoMap.find fields.reverse k := by
    intro k
    rw [GoMap.find_foldl_assign]
    cases GoMap.find fields.reverse k <;> simp [GoMap.find]
  refine ⟨_, hrun, GoMap.wf_foldl_assign fields [] (by simp [GoMap.WF, GoMap.keys]), ?_, hfind⟩
  intro k
  have h1 := GoMap.find_eq_none_iff (fields.foldl (fun acc f => GoMap.assign acc f.1 f.2) []) k
  have h2 := GoMap.find_eq_none_iff fields.reverse k
  rw [hfind k] at h1
  have h3 : k ∈ GoMap.keys fields.reverse ↔ k ∈ fields.map Prod.fst := by
    simp [GoMap.keys]
  rw [← h3]
  constructor
  · intro h
    by_contra hc
    exact (h1.mp (h2.mpr hc)) h
  · intro h
    by_contra hc
    exact (h2.mp (h1.mpr hc)) h

/-- Witness for C1: the frame of the fields `Event: Hangup`, `Cause: 16`. -/
theorem streamParser_frame_one_record_witness :
    ∃ r, streamParser (frame [(bytes "Event", bytes "Hangup"), (bytes "Cause", bytes "16")])
        = [r] ∧ GoMap.WF r ∧
      (∀ k, k ∈ GoMap.keys r ↔
        k ∈ [(bytes "Event", bytes "Hangup"), (bytes "Cause", bytes "16")].map Prod.fst) ∧
      (∀ k, GoMap.find r k =
        GoMap.find [(bytes "Event", bytes "Hangup"), (bytes "Cause", bytes "16")].reverse k) :=
  streamParser_frame_one_record.1 [(bytes "Event", bytes "Hangup"), (bytes "Cause", bytes "16")]
    (by decide) (by decide)

/-- C2: for every frame (lines `key: value\r\n` with keys free of colon, space, carriage
return and newline and values free of carriage return, then the blank line `\r\n`) and
every prefix of its bytes that stops before the carriage return of the blank line,
`streamParser` started from its initial state sends no record. (The frame may even have no
line at all.) -/
theorem streamParser_prefix_sends_nothing (fields : List (Str × Str)) (p : List Byte)
    (hf : ∀ f ∈ fields, plainKey f.1 ∧ 13 ∉ f.2) (hp : p <+: frame fields)
    (hlen : p.length + 2 ≤ (frame fields).length) : streamParser p = [] := by
  have hlines : p <+: fieldLines fields := by
    apply List.prefix_of_prefix_length_le hp (List.prefix_append _ _)
    simp only [frame, List.length_append, List.length_cons, List.length_nil] at hlen
    omega
  obtain ⟨q, hq⟩ := hlines
  have hall := (feed_fieldLines fields PState.init rfl rfl hf).1
  rw [← hq, feed_append] at hall
  exact (List.append_eq_nil.mp hall).1

/-- Witness for C2: the frame `Event: a:b\r\nCause: 16\r\n\r\n` cut after `Event: a:b\r\nCau`. -/
theorem streamParser_prefix_sends_nothing_witness :
    bytes "Event: a:b\r\nCau" <+: frame [(bytes "Event", bytes "a:b"), (bytes "Cause", bytes "16")] ∧
    streamParser (bytes "Event: a:b\r\nCau") = [] :=
  ⟨by decide,
   streamParser_prefix_sends_nothing [(bytes "Event", bytes "a:b"), (bytes "Cause", bytes "16")]
    (bytes "Event: a:b\r\nCau") (by decide) (by decide) (by decide)⟩

/-- C3: for every input byte sequence fed to `streamParser` from its initial state, no key
and no value of any sent record contains a colon byte or a newline byte. -/
theorem streamParser_no_colon_newline (input : List Byte) (r : GoMap)
    (hr : r ∈ streamParser input) (e : Str × Str) (he : e ∈ r) :
    noColonNewline e.1 ∧ noColonNewline e.2 := by
  have hinv := feed_invariant
    (fun s => noColonNewline s.wordBuf ∧ noColonNewline s.key ∧
      ∀ e ∈ s.data, noColonNewline e.1 ∧ noColonNewline e.2)
    (fun r => ∀ e ∈ r, noColonNewline e.1 ∧ noColonNewline e.2)
    (by
      intro s b ⟨hw, hk, hd⟩
      by_cases hskip : b = 58 ∨ b = 10
      · have hst : step s b = ({ s with lastByte := s.curByte, curByte := b }, none) := by
          simp [step, hskip]
        rw [hst]
        exact ⟨⟨hw, hk, hd⟩, by simp⟩
      · have hb1 : ¬ b = 58 := fun h => hskip (Or.inl h)
        have hb2 : ¬ b = 10 := fun h => hskip (Or.inr h)
        have hwb : noColonNewline (s.wordBuf ++ [b]) := by
          unfold noColonNewline at *
          simp only [List.mem_append, List.mem_singleton, not_or]
          exact ⟨⟨hw.1, fun h => hb1 h.symm⟩, ⟨hw.2, fun h => hb2 h.symm⟩⟩
        have hnil : noColonNewline [] := by simp [noColonNewline]
        unfold step
        simp only [hskip, if_false]
        split_ifs
        · exact ⟨⟨hnil, hw, hd⟩, by simp⟩
        · exact ⟨⟨hw, hk, hd⟩, by simp⟩
        · refine ⟨⟨hnil, hnil, by simp⟩, ?_⟩
          intro r hr
          simp only [Option.some.injEq] at hr
          rw [← hr]; exact hd
        · exact ⟨⟨hnil, hnil, hd⟩, by simp⟩
        · exact ⟨⟨hwb, hk, hd⟩, by simp⟩
        · refine ⟨⟨hnil, hk, ?_⟩, by simp⟩
          intro e he
          rcases GoMap.mem_assign _ _ _ _ he with h | h
          · exact hd e h
          · rw [h]; exact ⟨hk, hw⟩
        · exact ⟨⟨hwb, hk, hd⟩, by simp⟩
        · exact ⟨⟨hw, hk, hd⟩, by simp⟩)
    input PState.init (by simp [PState.init, noColonNewline])
  exact hinv.2 r hr e he

/-- Witness for C3: the input `A:: b\n:c\r\n\r\n` sends the record `{A: bc}`. -/
theorem streamParser_no_colon_newline_witness :
    [(bytes "A", bytes "bc")] ∈ streamParser (bytes "A:: b\n:c\r\n\r\n") ∧
    noColonNewline (bytes "A") ∧ noColonNewline (bytes "bc") :=
  ⟨by decide,
   streamParser_no_colon_newline (bytes "A:: b\n:c\r\n\r\n") [(bytes "A", bytes "bc")]
    (by decide) (bytes "A", bytes "bc") (by decide)⟩

/-! ## The claims about `classifier` -/

theorem classifier_cons (d : Str) (rest : List Str) (data : GoMap) :
    classifier (d :: rest) data = classifierCase data d ++ classifier rest data := by
  simp [classifier]

theorem classifier_of_absent (order : List Str) (data : GoMap)
    (hr : bytes "Response" ∉ order) (he : bytes "Event" ∉ order) :
    classifier order data = [] := by
  induction order with
  | nil => rfl
  | cons d rest ih =>
    simp only [List.mem_cons, not_or] at hr he
    have h1 : ¬ d = bytes "Response" := fun h => hr.1 h.symm
    have h2 : ¬ d = bytes "Event" := fun h => he.1 h.symm
    rw [classifier_cons, ih hr.2 he.2]
    simp [classifierCase, h1, h2]

theorem classifier_response_only (order : List Str) (data : GoMap) (hnd : order.Nodup)
    (hr : bytes "Response" ∈ order) (he : bytes "Event" ∉ order) :
    classifier order data = [(Dest.responses, data)] := by
  induction order with
  | nil => simp at hr
  | cons d rest ih =>
    simp only [List.mem_cons, not_or] at he
    have h2 : ¬ d = bytes "Event" := fun h => he.1 h.symm
    obtain ⟨hd, hnd2⟩ := List.nodup_cons.mp hnd
    rw [classifier_cons]
    by_cases h1 : d = bytes "Response"
    · rw [classifier_of_absent rest data (by rw [← h1]; exact hd) he.2]
      simp [classifierCase, h1]
    · have hr2 : bytes "Response" ∈ rest := by
        rcases List.mem_cons.mp hr with h | h
        · exact absurd h.symm h1
        · exact h
      rw [ih hnd2 hr2 he.2]
      simp [classifierCase, h1, h2]

theorem classifier_event_only (order : List Str) (data : GoMap) (hnd : order.Nodup)
    (hr : bytes "Response" ∉ order) (he : bytes "Event" ∈ order) :
    classifier order data = [(Dest.events, data)] := by
  induction order with
  | nil => simp at he
  | cons d rest ih =>
    simp only [List.mem_cons, not_or] at hr
    have h1 : ¬ d = bytes "Response" := fun h => hr.1 h.symm
    obtain ⟨hd, hnd2⟩ := List.nodup_cons.mp hnd
    rw [classifier_cons]
    by_cases h2 : d = bytes "Event"
    · rw [classifier_of_absent rest data hr.2 (by rw [← h2]; exact hd)]
      have h3 : ¬ bytes "Event" = bytes "Response" := by decide
      simp [classifierCase, h2, h3]
    · have he2 : bytes "Event" ∈ rest := by
        rcases List.mem_cons.mp he with h | h
        · exact absurd h.symm h2
        · exact h
      rw [ih hnd2 hr.2 he2]
      simp [classifierCase, h1, h2]

/-- C4: for every record (a map, so with distinct keys) and every order in which `range`
visits its keys, `classifier` sends a record with an `Event` key and no `Response` key
exactly once, on the event channel; a record with a `Response` key and no `Event` key exactly
once, on the response channel; and a record with neither key on no channel. -/
theorem classifier_routes (data : GoMap) (order : List Str) (hwf : GoMap.WF data)
    (ho : order.Perm (GoMap.keys data)) :
    (GoMap.has data (bytes "Event") = true → GoMap.has data (bytes "Response") = false →
      classifier order data = [(Dest.events, data)]) ∧
    (GoMap.has data (bytes "Response") = true → GoMap.has data (bytes "Event") = false →
      classifier order data = [(Dest.responses, data)]) ∧
    (GoMap.has data (bytes "Response") = false → GoMap.has data (bytes "Event") = false →
      classifier order data = []) := by
  have hnd : order.Nodup := ho.nodup_iff.mpr hwf
  have hmem : ∀ k, GoMap.has data k = true ↔ k ∈ order := fun k =>
    (GoMap.has_iff_mem_keys data k).trans ho.mem_iff.symm
  have hnot : ∀ k, GoMap.has data k = false → k ∉ order := by
    intro k h hk
    rw [(hmem k).mpr hk] at h
    exact Bool.noConfusion h
  refine ⟨?_, ?_, ?_⟩
  · intro he hr
    exact classifier_event_only order data hnd (hnot _ hr) ((hmem _).mp he)
  · intro hr he
    exact classifier_response_only order data hnd ((hmem _).mp hr) (hnot _ he)
  · intro hr he
    exact classifier_of_absent order data (hnot _ hr) (hnot _ he)

/-- Witness for C4: the record `{Privilege: call, Event: Hangup}` visited `Event` first. -/
theorem classifier_routes_witness :
    classifier [bytes "Event", bytes "Privilege"]
        [(bytes "Privilege", bytes "call"), (bytes "Event", bytes "Hangup")] =
      [(Dest.events, [(bytes "Privilege", bytes "call"), (bytes "Event", bytes "Hangup")])] :=
  (classifier_routes [(bytes "Privilege", bytes "call"), (bytes "Event", bytes "Hangup")]
    [bytes "Event", bytes "Privilege"] (by decide) (by decide)).1 (by decide) (by decide)

/-- With both keys present `classifier` always makes two sends, whatever the visiting order. -/
theorem classifier_both_keys_length (order : List Str) (data : GoMap) (hnd : order.Nodup)
    (hr : bytes "Response" ∈ order) (he : bytes "Event" ∈ order) :
    (classifier order data).length = 2 := by
  induction order with
  | nil => simp at hr
  | cons d rest ih =>
    obtain ⟨hd, hnd2⟩ := List.nodup_cons.mp hnd
    have hne : ¬ bytes "Event" = bytes "Response" := by decide
    rw [classifier_cons]
    by_cases h1 : d = bytes "Response"
    · have he2 : bytes "Event" ∈ rest := by
        rcases List.mem_cons.mp he with h | h
        · exact absurd (h.trans h1) hne
        · exact h
      rw [classifier_event_only rest data hnd2 (by rw [← h1]; exact hd) he2]
      simp [classifierCase, h1]
    · have hr2 : bytes "Response" ∈ rest := by
        rcases List.mem_cons.mp hr with h | h
        · exact absurd h.symm h1
        · exact h
      by_cases h2 : d = bytes "Event"
      · rw [classifier_response_only rest data hnd2 hr2 (by rw [← h2]; exact hd)]
        simp [classifierCase, h2, hne]
      · have he2 : bytes "Event" ∈ rest := by
          rcases List.mem_cons.mp he with h | h
          · exact absurd h.symm h2
          · exact h
        rw [List.length_append, ih hnd2 hr2 he2]
        simp [classifierCase, h1, h2]

/-- C8, evaluated on the record `{Response: Success, Event: Hangup}`: in either visiting
order `classifier` makes two sends, one on each channel, because the `break` of a `switch`
case does not leave the `range` loop. -/
theorem classifier_both_keys_two_sends :
    classifier [bytes "Response", bytes "Event"]
        [(bytes "Response", bytes "Success"), (bytes "Event", bytes "Hangup")] =
      [(Dest.responses, [(bytes "Response", bytes "Success"), (bytes "Event", bytes "Hangup")]),
       (Dest.events, [(bytes "Response", bytes "Success"), (bytes "Event", bytes "Hangup")])] ∧
    classifier [bytes "Event", bytes "Response"]
        [(bytes "Response", bytes "Success"), (bytes "Event", bytes "Hangup")] =
      [(Dest.events, [(bytes "Response", bytes "Success"), (bytes "Event", bytes "Hangup")]),
       (Dest.responses, [(bytes "Response", bytes "Success"), (bytes "Event", bytes "Hangup")])] := by
  decide

/-! ## The claims about `serialize` -/

theorem serialize_foldl (data : GoMap) (order : List Str) (acc : List Byte) :
    order.foldl
        (fun outBuf key => outBuf ++ key ++ bytes ": " ++ GoMap.index data key ++ bytes "\n") acc =
      acc ++ order.flatMap (fun key => key ++ bytes ": " ++ GoMap.index data key ++ bytes "\n") := by
  induction order generalizing acc with
  | nil => simp
  | cons key rest ih =>
    rw [List.foldl_cons, ih, List.flatMap_cons]
    simp only [List.append_assoc]

theorem serialize_lines_of_entries (data : GoMap) (hwf : GoMap.WF data)
    (ents : List (Str × Str)) (hsub : ∀ e ∈ ents, e ∈ data) :
    (ents.map Prod.fst).flatMap
        (fun key => key ++ bytes ": " ++ GoMap.index data key ++ bytes "\n") =
      ents.flatMap (fun e => e.1 ++ bytes ": " ++ e.2 ++ bytes "\n") := by
  induction ents with
  | nil => rfl
  | cons e rest ih =>
    have h1 : GoMap.index data e.1 = e.2 := by
      simp [GoMap.index, GoMap.find_eq_some_of_mem data hwf e (hsub e (List.mem_cons_self _ _))]
    have h2 := ih (fun g hg => hsub g (List.mem_cons_of_mem _ hg))
    simp only [List.map_cons, List.flatMap_cons, h1, h2]

theorem serialize_lines_length (ents : List (Str × Str)) :
    (ents.flatMap (fun e => e.1 ++ bytes ": " ++ e.2 ++ bytes "\n")).length =
      (ents.map (fun e => e.1.length + e.2.length + 3)).sum := by
  induction ents with
  | nil => rfl
  | cons e rest ih =>
    have h1 : (bytes ": ").length = 2 := rfl
    have h2 : (bytes "\n").length = 1 := rfl
    simp only [List.flatMap_cons, List.length_append, List.map_cons, List.sum_cons, ih, h1, h2]
    omega

/-- C7: for every field mapping (a map, so with distinct keys) and every order `ents` in
which `range` visits its fields, `serialize` outputs for each field, once and in that order,
the bytes `key ++ ": " ++ value ++ "\n"`, then one final `"\n"` and nothing else; the output
length is 1 plus the sum over the fields of `len(key) + len(value) + 3`; and the empty
mapping serializes to exactly `"\n"`. -/
theorem serialize_output (data : GoMap) (ents : List (Str × Str)) (hwf : GoMap.WF data)
    (hp : ents.Perm data) :
    serialize (ents.map Prod.fst) data =
      ents.flatMap (fun e => e.1 ++ bytes ": " ++ e.2 ++ bytes "\n") ++ bytes "\n" ∧
    (serialize (ents.map Prod.fst) data).length =
      1 + (data.map (fun e => e.1.length + e.2.length + 3)).sum ∧
    serialize [] [] = bytes "\n" := by
  have hout : serialize (ents.map Prod.fst) data =
      ents.flatMap (fun e => e.1 ++ bytes ": " ++ e.2 ++ bytes "\n") ++ bytes "\n" := by
    unfold serialize
    rw [serialize_foldl, List.nil_append,
      serialize_lines_of_entries data hwf ents (fun e he => hp.mem_iff.mp he)]
  refine ⟨hout, ?_, rfl⟩
  have h2 : (bytes "\n").length = 1 := rfl
  rw [hout, List.length_append, serialize_lines_length, h2,
    (hp.map (fun e => e.1.length + e.2.length + 3)).sum_eq]
  omega

/-- Witness for C7: the action `{Action: Ping, ActionID: 7}` visited `ActionID` first. -/
theorem serialize_output_witness :
    serialize [bytes "ActionID", bytes "Action"]
        [(bytes "Action", bytes "Ping"), (bytes "ActionID", bytes "7")] =
      bytes "ActionID: 7\nAction: Ping\n\n" ∧
    (serialize [bytes "ActionID", bytes "Action"]
        [(bytes "Action", bytes "Ping"), (bytes "ActionID", bytes "7")]).length =
      1 + ((6 + 4 + 3) + (8 + 1 + 3)) :=
  ⟨(serialize_output [(bytes "Action", bytes "Ping"), (bytes "ActionID", bytes "7")]
      [(bytes "ActionID", bytes "7"), (bytes "Action", bytes "Ping")] (by decide)
      (by decide)).1,
   (serialize_output [(bytes "Action", bytes "Ping"), (bytes "ActionID", bytes "7")]
      [(bytes "ActionID", bytes "7"), (bytes "Action", bytes "Ping")] (by decide)
      (by decide)).2.1⟩

theorem step_no_cr (s : PState) (b : Byte) (hb : b ≠ 13) :
    (step s b).2 = none ∧ (step s b).1.value = s.value := by
  simp only [step]
  split_ifs
  all_goals simp_all

theorem feed_no_cr (input : List Byte) (s : PState) (h : 13 ∉ input) :
    (feed s input).2 = [] ∧ (feed s input).1.value = s.value := by
  induction input generalizing s with
  | nil => simp [feed_nil]
  | cons b rest ih =>
    simp only [List.mem_cons, not_or] at h
    obtain ⟨h1, h2⟩ := step_no_cr s b (fun hb => h.1 hb.symm)
    obtain ⟨h3, h4⟩ := ih (step s b).1 h.2
    simp [feed_cons, h1, h3, h4, h2]

theorem step_cr_empty_value (s : PState) (hv : s.value = []) : (step s 13).2 = none := by
  simp only [step]
  split_ifs
  all_goals simp_all

theorem GoMap.index_no_cr (data : GoMap) (k : Str) (hd : ∀ e ∈ data, 13 ∉ e.2) :
    13 ∉ GoMap.index data k := by
  induction data with
  | nil => simp [GoMap.index, GoMap.find]
  | cons e rest ih =>
    obtain ⟨ke, ve⟩ := e
    by_cases h : ke = k
    · have := hd (ke, ve) (List.mem_cons_self _ _)
      simpa [GoMap.index, GoMap.find, h] using this
    · have := ih (fun g hg => hd g (List.mem_cons_of_mem _ hg))
      simpa [GoMap.index, GoMap.find, h] using this

theorem serialize_no_cr (order : List Str) (data : GoMap) (ho : ∀ k ∈ order, 13 ∉ k)
    (hd : ∀ e ∈ data, 13 ∉ e.2) : 13 ∉ serialize order data := by
  have h1 : 13 ∉ bytes ": " := by decide
  have h2 : 13 ∉ bytes "\n" := by decide
  unfold serialize
  rw [serialize_foldl]
  simp only [List.nil_append, List.mem_append, List.mem_flatMap, not_or, not_exists, not_and]
  refine ⟨?_, h2⟩
  intro k hk
  exact ⟨⟨⟨ho k hk, h1⟩, GoMap.index_no_cr data k hd⟩, h2⟩

/-- No action free of carriage returns survives the round trip: whatever the visiting order,
`streamParser` fed the bytes of `serialize` and the blank line `\r\n` sends no record. -/
theorem serialize_then_blank_line (order : List Str) (data : GoMap)
    (ho : ∀ k ∈ order, 13 ∉ k) (hd : ∀ e ∈ data, 13 ∉ e.2) :
    streamParser (serialize order data ++ [13, 10]) = [] := by
  obtain ⟨h1, h2⟩ := feed_no_cr (serialize order data) PState.init
    (serialize_no_cr order data ho hd)
  have h3 := step_cr_empty_value (feed PState.init (serialize order data)).1 h2
  have h4 := (step_no_cr (step (feed PState.init (serialize order data)).1 13).1 10
    (by decide)).1
  simp [streamParser, feed_append, feed_cons, feed_nil, h1, h3, h4]

/-- C5, evaluated on the action `{Action: Login, Username: u, Secret: p}` visited in that
order: `serialize` gives `Action: Login\nUsername: u\nSecret: p\n\n`, which holds no carriage
return, and `streamParser` fed these bytes and a blank line (`\r\n`, or `\n`) sends no record;
with two more carriage returns it sends a record with the single field `Action`, whose value
is the rest of the text. -/
theorem serialize_then_parse_sends_nothing :
    serialize [bytes "Action", bytes "Username", bytes "Secret"]
        [(bytes "Action", bytes "Login"), (bytes "Username", bytes "u"),
         (bytes "Secret", bytes "p")] = bytes "Action: Login\nUsername: u\nSecret: p\n\n" ∧
    streamParser (serialize [bytes "Action", bytes "Username", bytes "Secret"]
        [(bytes "Action", bytes "Login"), (bytes "Username", bytes "u"),
         (bytes "Secret", bytes "p")] ++ bytes "\r\n") = [] ∧
    streamParser (serialize [bytes "Action", bytes "Username", bytes "Secret"]
        [(bytes "Action", bytes "Login"), (bytes "Username", bytes "u"),
         (bytes "Secret", bytes "p")] ++ bytes "\n") = [] ∧
    streamParser (serialize [bytes "Action", bytes "Username", bytes "Secret"]
        [(bytes "Action", bytes "Login"), (bytes "Username", bytes "u"),
         (bytes "Secret", bytes "p")] ++ bytes "\r\n\r\n") =
      [[(bytes "Action", bytes "LoginUsername uSecret p")]] := by
  decide

/-! ## The claims about `Login` -/

/-- C6: `Login(username, password)` returns an error exactly when the record returned by
`Exec` has its `Response` field equal to `Error`; then the returned channel is `nil` and the
error text is `Login failed: ` followed by the record's `Message` field; in every other case
it returns the adapter's event channel and a `nil` error. -/
theorem Login_result (a : AMIAdapter) (username password : Str) (p p' : Pipeline)
    (result : GoMap)
    (hexec : Exec p [(bytes "Action", bytes "Login"), (bytes "Username", username),
        (bytes "Secret", password)] = (p', some result)) :
    ∃ a' res, Login a username password p = (a', p', some res) ∧
      (res.err.isSome = true ↔ GoMap.index result (bytes "Response") = bytes "Error") ∧
      (GoMap.index result (bytes "Response") = bytes "Error" →
        res.chan = none ∧
        res.err = some (bytes "Login failed: " ++ GoMap.index result (bytes "Message"))) ∧
      (GoMap.index result (bytes "Response") ≠ bytes "Error" →
        res.chan = some a.chanEvents ∧ res.err = none) := by
  by_cases h : GoMap.index result (bytes "Response") = bytes "Error"
  · exact ⟨{ a with username := username, password := password },
      { chan := none,
        err := some (bytes "Login failed: " ++ GoMap.index result (bytes "Message")) },
      by simp only [Login, hexec, h, if_true], by simp [h], fun _ => ⟨rfl, rfl⟩,
      fun h2 => absurd h h2⟩
  · exact ⟨{ a with username := username, password := password },
      { chan := some a.chanEvents, err := none },
      by simp only [Login, hexec, h, if_false], by simp [h], fun h2 => absurd h2 h,
      fun _ => ⟨rfl, rfl⟩⟩

/-- Witness for C6: the server answers `{Response: Error, Message: Authentication failed}`. -/
theorem Login_result_witness :
    ∃ a' res,
      Login { ip := bytes "10.0.0.1", username := [], password := [], chanActions := 1,
              chanResponses := 2, chanEvents := 3 } (bytes "u") (bytes "bad")
          { sent := [], responses := [[(bytes "Response", bytes "Error"),
              (bytes "Message", bytes "Authentication failed")]] } =
        (a', { sent := [[(bytes "Action", bytes "Login"), (bytes "Username", bytes "u"),
                (bytes "Secret", bytes "bad")]], responses := [] }, some res) ∧
      (res.err.isSome = true ↔
        GoMap.index [(bytes "Response", bytes "Error"),
          (bytes "Message", bytes "Authentication failed")] (bytes "Response") = bytes "Error") ∧
      (GoMap.index [(bytes "Response", bytes "Error"),
          (bytes "Message", bytes "Authentication failed")] (bytes "Response") = bytes "Error" →
        res.chan = none ∧
        res.err = some (bytes "Login failed: " ++
          GoMap.index [(bytes "Response", bytes "Error"),
            (bytes "Message", bytes "Authentication failed")] (bytes "Message"))) ∧
      (GoMap.index [(bytes "Response", bytes "Error"),
          (bytes "Message", bytes "Authentication failed")] (bytes "Response") ≠ bytes "Error" →
        res.chan = some 3 ∧ res.err = none) :=
  Login_result
    { ip := bytes "10.0.0.1", username := [], password := [], chanActions := 1,
      chanResponses := 2, chanEvents := 3 } (bytes "u") (bytes "bad")
    { sent := [], responses := [[(bytes "Response", bytes "Error"),
                                 (bytes "Message", bytes "Authentication failed")]] }
    { sent := [[(bytes "Action", bytes "Login"), (bytes "Username", bytes "u"),
                (bytes "Secret", bytes "bad")]], responses := [] }
    [(bytes "Response", bytes "Error"), (bytes "Message", bytes "Authentication failed")]
    (by decide)

/-! ## The carriage return in key state -/

/-- C9, evaluated on the frame `A: x\r\nB: \r\n\r\n`, whose last value is empty: after
`A: x\r\nB: \r\n` the parser is in key state and the record in progress holds the two stored
fields, yet the carriage return of the blank line sends nothing and keeps the record, because
the guard tests the variable `value` (empty here) and not the record; so the frame sends no
record, and its fields are sent only with the next frame, merged into that frame's record. -/
theorem step_cr_withholds_record :
    (feed PState.init (bytes "A: x\r\nB: \r\n")).1.state = 0 ∧
    (feed PState.init (bytes "A: x\r\nB: \r\n")).1.data =
      [(bytes "A", bytes "x"), (bytes "B", [])] ∧
    (step (feed PState.init (bytes "A: x\r\nB: \r\n")).1 13).2 = none ∧
    (step (feed PState.init (bytes "A: x\r\nB: \r\n")).1 13).1.data =
      [(bytes "A", bytes "x"), (bytes "B", [])] ∧
    streamParser (bytes "A: x\r\nB: \r\n\r\n") = [] ∧
    streamParser (bytes "A: x\r\nB: \r\n\r\nC: y\r\n\r\n") =
      [[(bytes "A", bytes "x"), (bytes "B", []), (bytes "C", bytes "y")]] := by
  decide

/-! ## Sent records are never empty -/

theorem step_value_data (s : PState) (b : Byte) (h : s.value ≠ [] → s.data ≠ []) :
    ((step s b).1.value ≠ [] → (step s b).1.data ≠ []) ∧
      ∀ r, (step s b).2 = some r → r ≠ [] := by
  simp only [step]
  split_ifs with h1 h2 h3 h4 h5 h6 h7 h8
  · exact ⟨h, by simp⟩
  · exact ⟨h, by simp⟩
  · exact ⟨h, by simp⟩
  · refine ⟨by simp, ?_⟩
    intro r hr
    simp only [Option.some.injEq] at hr
    rw [← hr]
    exact h (List.length_pos.mp h6)
  · exact ⟨by simp, by simp⟩
  · exact ⟨h, by simp⟩
  · exact ⟨fun _ => GoMap.assign_ne_nil _ _ _, by simp⟩
  · exact ⟨h, by simp⟩
  · exact ⟨h, by simp⟩

theorem step_send (s : PState) (b : Byte) (r : GoMap) (h : (step s b).2 = some r) :
    r = s.data ∧ (step s b).1.data = [] := by
  simp only [step] at h ⊢
  split_ifs at h ⊢
  all_goals simp_all

theorem step_data_mem (s : PState) (b : Byte) (e : Str × Str) (h : e ∈ (step s b).1.data) :
    e ∈ s.data ∨ (s.state = 1 ∧ b = 13 ∧ e = (s.key, s.wordBuf)) := by
  simp only [step] at h
  split_ifs at h with h1 h2 h3 h4 h5 h6 h7 h8
  · exact Or.inl h
  · exact Or.inl h
  · exact Or.inl h
  · simp at h
  · exact Or.inl h
  · exact Or.inl h
  · rcases GoMap.mem_assign _ _ _ _ h with h9 | h9
    · exact Or.inl h9
    · exact Or.inr ⟨h7, h8, h9⟩
  · exact Or.inl h
  · exact Or.inl h

theorem feed_blank (input : List Byte) (s : PState) (hb : ∀ b ∈ input, b = 13 ∨ b = 10)
    (hs : s.state = 0) (hv : s.value = []) : (feed s input).2 = [] := by
  induction input generalizing s with
  | nil => rfl
  | cons b rest ih =>
    have hrest : ∀ c ∈ rest, c = 13 ∨ c = 10 := fun c hc => hb c (List.mem_cons_of_mem _ hc)
    rcases hb b (List.mem_cons_self _ _) with h | h
    · subst h
      have hst : step s 13 = ({ PState.init with data := s.data }, none) := by
        simp [step, hs, hv, PState.init]
      rw [feed_cons, hst]
      exact ih { PState.init with data := s.data } hrest rfl rfl
    · subst h
      have hst : step s 10 = ({ s with lastByte := s.curByte, curByte := 10 }, none) := by
        simp [step]
      rw [feed_cons, hst]
      exact ih { s with lastByte := s.curByte, curByte := 10 } hrest hs hv

/-- C10: for every input byte sequence fed to `streamParser` from its initial state, every
sent record has at least one field; the record sent in a round is the record in progress,
which is empty again after the round, and a field enters the record in progress only by being
stored (a carriage return in value state), so the fields of a sent record were all stored
since the previous sending; and an input made only of carriage-return and newline bytes
sends no record at all. -/
theorem streamParser_records_nonempty :
    (∀ input : List Byte, ∀ r ∈ streamParser input, r ≠ []) ∧
    (∀ (pre : List Byte) (b : Byte) (r : GoMap),
      (step (feed PState.init pre).1 b).2 = some r →
      r ≠ [] ∧ r = (feed PState.init pre).1.data ∧
        (step (feed PState.init pre).1 b).1.data = []) ∧
    (∀ (pre : List Byte) (b : Byte) (e : Str × Str),
      e ∈ (step (feed PState.init pre).1 b).1.data →
      e ∈ (feed PState.init pre).1.data ∨
        ((feed PState.init pre).1.state = 1 ∧ b = 13 ∧
          e = ((feed PState.init pre).1.key, (feed PState.init pre).1.wordBuf))) ∧
    (∀ input : List Byte, (∀ b ∈ input, b = 13 ∨ b = 10) → streamParser input = []) := by
  have hinv : ∀ l, ((feed PState.init l).1.value ≠ [] → (feed PState.init l).1.data ≠ []) ∧
      ∀ r ∈ (feed PState.init l).2, r ≠ [] := fun l =>
    feed_invariant (fun s => s.value ≠ [] → s.data ≠ []) (fun r => r ≠ [])
      (fun s b h => step_value_data s b h) l PState.init (by simp [PState.init])
  refine ⟨fun input => (hinv input).2, ?_, ?_, ?_⟩
  · intro pre b r hr
    exact ⟨(step_value_data _ b (hinv pre).1).2 r hr, step_send _ b r hr⟩
  · intro pre b e he
    exact step_data_mem _ b e he
  · intro input hb
    exact feed_blank input PState.init hb rfl rfl

/-- Witness for C10: the input `\r\n\r\n` sends nothing, and the record sent by
`\r\nA: x\r\n\r\n` is not empty. -/
theorem streamParser_records_nonempty_witness :
    streamParser (bytes "\r\n\r\n") = [] ∧
    [(bytes "A", bytes "x")] ∈ streamParser (bytes "\r\nA: x\r\n\r\n") ∧
    [(bytes "A", bytes "x")] ≠ ([] : GoMap) :=
  ⟨streamParser_records_nonempty.2.2.2 (bytes "\r\n\r\n") (by decide), by decide,
   streamParser_records_nonempty.1 (bytes "\r\nA: x\r\n\r\n") [(bytes "A", bytes "x")]
    (by decide)⟩

/-! ## Runs that differ only in the two byte variables -/

theorem step_sameVars (s t : PState) (b : Byte) (h : sameVars s t)
    (hc : b = 32 → (s.curByte = 58 ↔ t.curByte = 58)) :
    (step s b).2 = (step t b).2 ∧ sameVars (step s b).1 (step t b).1 ∧
      (step s b).1.curByte = (step t b).1.curByte := by
  obtain ⟨h1, h2, h3, h4, h5⟩ := h
  by_cases hsp : b = 32
  · have hc2 := hc hsp
    by_cases hcol : s.curByte = 58
    · have hcol2 := hc2.mp hcol
      simp [step, sameVars, h1, h2, h3, h4, h5, hsp, hcol, hcol2]
    · have hcol2 : ¬ t.curByte = 58 := fun hx => hcol (hc2.mpr hx)
      simp only [step, sameVars, h1, h2, h3, h4, h5, hsp, hcol, hcol2]
      split_ifs
      all_goals simp_all
  · simp only [step, sameVars, h1, h2, h3, h4, h5, hsp]
    split_ifs
    all_goals simp_all

theorem feed_sameVars (input : List Byte) (s t : PState) (h : sameVars s t)
    (hc : s.curByte = 58 ↔ t.curByte = 58) : (feed s input).2 = (feed t input).2 := by
  induction input generalizing s t with
  | nil => rfl
  | cons b rest ih =>
    obtain ⟨h1, h2, h3⟩ := step_sameVars s t b h (fun _ => hc)
    rw [feed_cons, feed_cons, h1, ih (step s b).1 (step t b).1 h2 (by rw [h3])]

/-! ## A line without separator -/

theorem step_cr_fresh (s : PState) (hs : s.state = 0) (hv : s.value = []) (hd : s.data = []) :
    step s 13 = (PState.init, none) := by
  simp [step, hs, hv, hd, PState.init]

theorem feed_no_separator (l : List Byte) (s : PState) (hs : s.state = 0)
    (hcr : 13 ∉ l) (hsep : hasSeparator l = false)
    (hfirst : s.curByte = 58 → l.head? ≠ some 32) :
    (feed s l).2 = [] ∧ (feed s l).1.state = 0 ∧ (feed s l).1.value = s.value ∧
      (feed s l).1.data = s.data := by
  induction l generalizing s with
  | nil => simp [feed_nil, hs]
  | cons b rest ih =>
    simp only [List.mem_cons, not_or] at hcr
    have hb : ¬ b = 13 := fun h => hcr.1 h.symm
    simp only [hasSeparator, Bool.or_eq_false_iff, Bool.and_eq_false_imp,
      decide_eq_true_eq, decide_eq_false_iff_not] at hsep
    have hsp : b = 32 → ¬ s.curByte = 58 := fun h1 h2 => hfirst h2 (by simp [h1])
    have hst : (step s b).2 = none ∧ (step s b).1.state = 0 ∧ (step s b).1.value = s.value ∧
        (step s b).1.data = s.data ∧ (step s b).1.curByte = b := by
      simp only [step]
      split_ifs
      all_goals simp_all
    obtain ⟨a1, a2, a3, a4, a5⟩ := hst
    obtain ⟨b1, b2, b3, b4⟩ := ih (step s b).1 a2 hcr.2 hsep.2
      (fun h => hsep.1 (a5.symm.trans h))
    rw [feed_cons]
    exact ⟨by simp [a1, b1], b2, by rw [b3, a3], by rw [b4, a4]⟩

/-- C16: a line with no field separator is swallowed. For every byte string `L` that contains
no carriage return and no colon immediately followed by a space, and every byte sequence `R`,
`streamParser` started from its initial state sends on `L ++ "\r\n" ++ R` exactly the records
it sends on `R` alone. -/
theorem streamParser_line_without_separator (L R : List Byte) (hcr : 13 ∉ L)
    (hsep : hasSeparator L = false) :
    streamParser (L ++ [13, 10] ++ R) = streamParser R := by
  obtain ⟨a1, a2, a3, a4⟩ := feed_no_separator L PState.init rfl hcr hsep
    (fun h => absurd h (by decide))
  have hcr2 : step (feed PState.init L).1 13 = (PState.init, none) :=
    step_cr_fresh _ a2 a3 a4
  have hlf : step PState.init 10 = ({ PState.init with curByte := 10 }, none) := by
    simp [step, PState.init]
  have hsame : (feed { PState.init with curByte := 10 } R).2 = (feed PState.init R).2 :=
    feed_sameVars R _ _ ⟨rfl, rfl, rfl, rfl, rfl⟩ (by simp [PState.init])
  simp only [streamParser, feed_append, feed_cons, feed_nil, a1, hcr2, hlf, hsame]
  simp

/-- Witness for C16: the banner line of the server before the first frame. -/
theorem streamParser_line_without_separator_witness :
    streamParser (bytes "Asterisk Call Manager/1.1" ++ [13, 10] ++
        bytes "Response: Success\r\n\r\n") =
      streamParser (bytes "Response: Success\r\n\r\n") :=
  streamParser_line_without_separator (bytes "Asterisk Call Manager/1.1")
    (bytes "Response: Success\r\n\r\n") (by decide) (by decide)


/-! ## Newlines -/
theorem newlinesThenSpace_cons (b : Byte) (rest : List Byte) :
    newlinesThenSpace (b :: rest) =
      (decide (b = 10) && (decide (rest.head? = some 32) || newlinesThenSpace rest)) := rfl

theorem separatorSplit_cons (b : Byte) (rest : List Byte) :
    separatorSplit (b :: rest) =
      ((decide (b = 58) && newlinesThenSpace rest) || separatorSplit rest) := rfl

theorem dropNewlines_cons (b : Byte) (rest : List Byte) :
    dropNewlines (b :: rest) = if b = 10 then dropNewlines rest else b :: dropNewlines rest := by
  by_cases h : b = 10 <;> simp [dropNewlines, h]

theorem step_newline (s : PState) :
    step s 10 = ({ s with lastByte := s.curByte, curByte := 10 }, none) := by
  simp [step]

/-- The run on an input and the run on the input without newlines send the same records,
when no colon is cut off from its space by newlines. -/
theorem feed_dropNewlines (input : List Byte) (s t : PState) (h : sameVars s t)
    (hsplit : separatorSplit input = false)
    (hb : s.curByte = 58 → t.curByte = 58)
    (hc : t.curByte = 58 → newlinesThenSpace input = false)
    (hd : t.curByte = 58 → s.curByte ≠ 58 → input.head? ≠ some 32) :
    (feed s input).2 = (feed t (dropNewlines input)).2 := by
  induction input generalizing s t with
  | nil => rfl
  | cons b rest ih =>
    rw [separatorSplit_cons, Bool.or_eq_false_iff] at hsplit
    obtain ⟨hs1, hs2⟩ := hsplit
    by_cases hnl : b = 10
    · subst hnl
      rw [dropNewlines_cons, if_pos rfl, feed_cons, step_newline]
      have hrest : t.curByte = 58 →
          rest.head? ≠ some 32 ∧ newlinesThenSpace rest = false := by
        intro ht
        have := hc ht
        rw [newlinesThenSpace_cons] at this
        simpa using this
      have := ih { s with lastByte := s.curByte, curByte := 10 } t h hs2
        (fun hx => by simp at hx) (fun ht => (hrest ht).2) (fun ht _ => (hrest ht).1)
      simpa using this
    · rw [dropNewlines_cons, if_neg hnl, feed_cons, feed_cons]
      have hiff : b = 32 → (s.curByte = 58 ↔ t.curByte = 58) := by
        intro hsp
        refine ⟨hb, fun ht => ?_⟩
        by_contra hne
        exact hd ht hne (by simp [hsp])
      obtain ⟨h1, h2, h3⟩ := step_sameVars s t b h hiff
      have hcur : (step t b).1.curByte = 58 → b = 58 := by
        simp only [step]
        split_ifs
        all_goals simp_all
      rw [h1, ih (step s b).1 (step t b).1 h2 hs2 (by rw [h3]; exact id)
        (fun ht => by
          have hb58 := hcur ht
          simpa [hb58] using hs1)
        (fun ht hne => absurd (h3.trans ht) hne)]

/-- C11 as stated fails: on `k:\n v\r\n\r\n` the newline between the colon and the space
keeps the parser in key state and no record is sent, while on the same input without its
newlines, `k: v\r\r`, the record `{k: v}` is sent. -/
theorem streamParser_newline_counterexample :
    dropNewlines (bytes "k:\n v\r\n\r\n") = bytes "k: v\r\r" ∧
    streamParser (bytes "k:\n v\r\n\r\n") = [] ∧
    streamParser (dropNewlines (bytes "k:\n v\r\n\r\n")) = [[(bytes "k", bytes "v")]] := by
  decide

/-- C11, amended: for every input byte sequence in which no colon is followed by one or more
newline bytes and then a space, the sequence of records `streamParser` sends equals the
sequence it sends on the same input with every newline byte removed. -/
theorem streamParser_dropNewlines (input : List Byte) (h : separatorSplit input = false) :
    streamParser input = streamParser (dropNewlines input) :=
  feed_dropNewlines input PState.init PState.init ⟨rfl, rfl, rfl, rfl, rfl⟩ h id
    (fun hx => by simp [PState.init] at hx) (fun hx => by simp [PState.init] at hx)

/-- Witness for the amended C11: newlines inside a key, inside a value and after the
carriage returns. -/
theorem streamParser_dropNewlines_witness :
    streamParser (bytes "k\ney: v\nal\r\n\n\r\n") =
      streamParser (dropNewlines (bytes "k\ney: v\nal\r\n\n\r\n")) :=
  streamParser_dropNewlines (bytes "k\ney: v\nal\r\n\n\r\n") (by decide)

/-! ## Sequential calls of `Exec` -/

/-- C12: when N actions are issued through `Exec` one at a time, each call returning before
the next is made, and at least N records are delivered on the response channel, every call
returns and the N calls return the first N delivered records in order: the i-th call returns
the i-th record. The actions reach the action channel in calling order. -/
theorem execEach_in_order (actions : List GoMap) (p : Pipeline)
    (h : actions.length ≤ p.responses.length) :
    execEach p actions =
      ({ sent := p.sent ++ actions, responses := p.responses.drop actions.length },
        some (p.responses.take actions.length)) := by
  induction actions generalizing p with
  | nil => simp [execEach]
  | cons action rest ih =>
    obtain ⟨sent, responses⟩ := p
    cases responses with
    | nil => simp at h
    | cons r more =>
      have h2 : rest.length ≤ more.length := by simpa using h
      have := ih { sent := sent ++ [action], responses := more } h2
      simp only [execEach, Exec, this]
      simp

/-- Witness for C12: two actions, three records delivered. -/
theorem execEach_in_order_witness :
    execEach { sent := [], responses := [[(bytes "Response", bytes "Pong")],
                 [(bytes "Response", bytes "Success")], [(bytes "Response", bytes "Error")]] }
        [[(bytes "Action", bytes "Ping")], [(bytes "Action", bytes "Logoff")]] =
      ({ sent := [] ++ [[(bytes "Action", bytes "Ping")], [(bytes "Action", bytes "Logoff")]],
         responses := [[(bytes "Response", bytes "Error")]] },
        some [[(bytes "Response", bytes "Pong")], [(bytes "Response", bytes "Success")]]) :=
  execEach_in_order [[(bytes "Action", bytes "Ping")], [(bytes "Action", bytes "Logoff")]]
    { sent := [], responses := [[(bytes "Response", bytes "Pong")],
        [(bytes "Response", bytes "Success")], [(bytes "Response", bytes "Error")]] }
    (by decide)

/-! ## Several frames -/

theorem step_cr_nonempty_value (s : PState) (hs : s.state = 0) (hv : s.value ≠ []) :
    step s 13 = (PState.init, some s.data) := by
  have hlen : 0 < s.value.length := List.length_pos.mpr hv
  simp [step, hs, hlen, PState.init]

theorem feed_frame (fields : List (Str × Str)) (s : PState) (hs : s.state = 0)
    (hw : s.wordBuf = []) (hd : s.data = []) (hne : fields ≠ [])
    (hf : ∀ f ∈ fields, plainKey f.1 ∧ f.2 ≠ [] ∧ plainValue f.2) :
    (feed s (frame fields)).2 = [recordOf fields] ∧ (feed s (frame fields)).1.state = 0 ∧
      (feed s (frame fields)).1.wordBuf = [] ∧ (feed s (frame fields)).1.data = [] := by
  have hkept : ∀ f ∈ fields, kept f.2 = f.2 := fun f h =>
    kept_of_plainValue f.2 (hf f h).2.2
  obtain ⟨a1, a2, a3, a4, a5⟩ :=
    feed_fieldLines fields s hs hw (fun f h => ⟨(hf f h).1, (hf f h).2.2.2.1⟩)
  have hv : (feed s (fieldLines fields)).1.value ≠ [] := by
    rw [a4]
    exact lastKept_ne_nil fields s.value hne (fun f h => by rw [hkept f h]; exact (hf f h).2.1)
  have hdata : (feed s (fieldLines fields)).1.data = recordOf fields := by
    rw [a5, hd, stored_of_plain fields [] hkept, recordOf]
  have hcr := step_cr_nonempty_value (feed s (fieldLines fields)).1 a2 hv
  have hlf : step PState.init 10 = ({ PState.init with curByte := 10 }, none) := by
    simp [step, PState.init]
  simp only [frame, feed_append, feed_cons, feed_nil, a1, hcr, hlf, hdata]
  simp [PState.init]

theorem feed_frames (fs : List (List (Str × Str))) (s : PState) (hs : s.state = 0)
    (hw : s.wordBuf = []) (hd : s.data = [])
    (h : ∀ fields ∈ fs, fields ≠ [] ∧ ∀ f ∈ fields, plainKey f.1 ∧ f.2 ≠ [] ∧ plainValue f.2) :
    (feed s (frames fs)).2 = fs.map recordOf := by
  induction fs generalizing s with
  | nil => rfl
  | cons fields rest ih =>
    obtain ⟨h1, h2⟩ := h fields (List.mem_cons_self _ _)
    obtain ⟨a1, a2, a3, a4⟩ := feed_frame fields s hs hw hd h1 h2
    have hsplit : frames (fields :: rest) = frame fields ++ frames rest := by
      simp [frames]
    rw [hsplit, feed_append, a1,
      ih (feed s (frame fields)).1 a2 a3 a4 (fun g hg => h g (List.mem_cons_of_mem _ hg))]
    simp

/-- C13: for every list of valid frames (each a non-empty list of fields, keys free of colon,
space, carriage return and newline, values non-empty and free of colon, carriage return and
newline), `streamParser` fed the concatenation of the frames sends exactly one record per
frame, in the order of the frames, each being the field mapping of its own frame: a map with
distinct keys that gives every key the value of its last occurrence in that frame and holds
nothing else, so no field of an earlier frame appears in a later record. -/
theorem streamParser_frames (fs : List (List (Str × Str)))
    (h : ∀ fields ∈ fs, fields ≠ [] ∧ ∀ f ∈ fields, plainKey f.1 ∧ f.2 ≠ [] ∧ plainValue f.2) :
    streamParser (frames fs) = fs.map recordOf ∧
    ∀ fields : List (Str × Str), GoMap.WF (recordOf fields) ∧
      ∀ k, GoMap.find (recordOf fields) k = GoMap.find fields.reverse k := by
  refine ⟨feed_frames fs PState.init rfl rfl rfl h, ?_⟩
  intro fields
  refine ⟨GoMap.wf_foldl_assign fields [] (by simp [GoMap.WF, GoMap.keys]), ?_⟩
  intro k
  rw [recordOf, GoMap.find_foldl_assign]
  cases GoMap.find fields.reverse k <;> simp [GoMap.find]

/-- Witness for C13: the frame `A: x` followed by the frame `B: y`, `A: z`. -/
theorem streamParser_frames_witness :
    streamParser (frames [[(bytes "A", bytes "x")],
        [(bytes "B", bytes "y"), (bytes "A", bytes "z")]]) =
      [[(bytes "A", bytes "x")], [(bytes "B", bytes "y"), (bytes "A", bytes "z")]].map recordOf :=
  (streamParser_frames [[(bytes "A", bytes "x")],
    [(bytes "B", bytes "y"), (bytes "A", bytes "z")]] (by decide)).1

/-! ## The reconnect loop -/

theorem reconnectLoop_all_fail (dial : Nat → Bool) (a : AMIAdapter) (p : Pipeline)
    (i n : Nat) (h : ∀ j, n < j → j ≤ n + i → dial j = false) :
    reconnectLoop dial a p i n =
      { ending := LoopEnd.gaveUp, attempts := n + i, sent := p.sent } := by
  induction i generalizing n with
  | zero => simp [reconnectLoop]
  | succ i ih =>
    have h1 : dial (n + 1) = false := h (n + 1) (by omega) (by omega)
    have h2 := ih (n + 1) (fun j hj1 hj2 => h j (by omega) (by omega))
    simp only [reconnectLoop, h1, h2]
    simp
    omega

theorem reconnectLoop_first_success (dial : Nat → Bool) (a : AMIAdapter) (p : Pipeline)
    (i n k : Nat) (hk1 : n < k) (hk2 : k ≤ n + i) (hk : dial k = true)
    (h : ∀ j, n < j → j < k → dial j = false) :
    (reconnectLoop dial a p i n).attempts = k ∧
      (reconnectLoop dial a p i n).ending ≠ LoopEnd.gaveUp := by
  induction i generalizing n with
  | zero => omega
  | succ i ih =>
    by_cases hn : k = n + 1
    · subst hn
      simp only [reconnectLoop, hk, if_true]
      rcases Login a a.username a.password p with ⟨a1, p1, _ | res⟩
      · simp
      · by_cases he : res.err.isSome = true <;> simp [he]
    · have h1 : dial (n + 1) = false := h (n + 1) (by omega) (by omega)
      have h2 := ih (n + 1) (by omega) (by omega) (fun j hj1 hj2 => h j (by omega) hj2)
      simpa [reconnectLoop, h1] using h2

theorem reconnectLoop_attempts_le (dial : Nat → Bool) (a : AMIAdapter) (p : Pipeline)
    (i n : Nat) : (reconnectLoop dial a p i n).attempts ≤ n + i := by
  induction i generalizing n with
  | zero => simp [reconnectLoop]
  | succ i ih =>
    by_cases h1 : dial (n + 1) = true
    · simp only [reconnectLoop, h1, if_true]
      rcases Login a a.username a.password p with ⟨a1, p1, _ | res⟩
      · simp
      · by_cases he : res.err.isSome = true <;> simp [he]
    · have h2 := ih (n + 1)
      simp only [reconnectLoop, h1]
      simp only [Bool.false_eq_true, if_false]
      omega

/-- C14: in the reconnect loop of `NewAMIAdapter`, for every sequence of dial outcomes: there
is never a 101st connection attempt; if every attempt fails, exactly 100 attempts are made
and the loop ends in the fatal give-up branch; if the k-th attempt (1 ≤ k ≤ 100) is the
first to succeed, exactly k attempts are made and the give-up branch is not reached. -/
theorem reconnect_attempts (dial : Nat → Bool) (a : AMIAdapter) (p : Pipeline) :
    (reconnect dial a p).attempts ≤ 100 ∧
    ((∀ j, 1 ≤ j → j ≤ 100 → dial j = false) →
      (reconnect dial a p).attempts = 100 ∧ (reconnect dial a p).ending = LoopEnd.gaveUp) ∧
    (∀ k, 1 ≤ k → k ≤ 100 → dial k = true → (∀ j, 1 ≤ j → j < k → dial j = false) →
      (reconnect dial a p).attempts = k ∧ (reconnect dial a p).ending ≠ LoopEnd.gaveUp) := by
  refine ⟨?_, ?_, ?_⟩
  · simpa [reconnect] using reconnectLoop_attempts_le dial a p 100 0
  · intro h
    have := reconnectLoop_all_fail dial a p 100 0 (fun j hj1 hj2 => h j (by omega) (by omega))
    simp [reconnect, this]
  · intro k hk1 hk2 hk h
    exact reconnectLoop_first_success dial a p 100 0 k (by omega) (by omega) hk
      (fun j hj1 hj2 => h j (by omega) hj2)

/-- Witness for C14: every dial fails; and the third dial is the first to succeed. -/
theorem reconnect_attempts_witness :
    ((reconnect (fun _ => false)
        { ip := [], username := [], password := [], chanActions := 1, chanResponses := 2,
          chanEvents := 3 } { sent := [], responses := [] }).attempts = 100 ∧
      (reconnect (fun _ => false)
        { ip := [], username := [], password := [], chanActions := 1, chanResponses := 2,
          chanEvents := 3 } { sent := [], responses := [] }).ending = LoopEnd.gaveUp) ∧
    ((reconnect (fun j => decide (3 ≤ j))
        { ip := [], username := [], password := [], chanActions := 1, chanResponses := 2,
          chanEvents := 3 } { sent := [], responses := [] }).attempts = 3 ∧
      (reconnect (fun j => decide (3 ≤ j))
        { ip := [], username := [], password := [], chanActions := 1, chanResponses := 2,
          chanEvents := 3 } { sent := [], responses := [] }).ending ≠ LoopEnd.gaveUp) :=
  ⟨(reconnect_attempts (fun _ => false)
      { ip := [], username := [], password := [], chanActions := 1, chanResponses := 2,
        chanEvents := 3 } { sent := [], responses := [] }).2.1 (fun _ _ _ => rfl),
   (reconnect_attempts (fun j => decide (3 ≤ j))
      { ip := [], username := [], password := [], chanActions := 1, chanResponses := 2,
        chanEvents := 3 } { sent := [], responses := [] }).2.2 3 (by decide) (by decide)
      (by decide) (fun j _ hj => by simp; omega)⟩

/-! ## The credentials kept by `Login` -/

theorem Exec_sent (p : Pipeline) (action : GoMap) :
    (Exec p action).1.sent = p.sent ++ [action] := by
  unfold Exec
  cases p.responses <;> rfl

theorem Login_adapter (a : AMIAdapter) (u pw : Str) (p : Pipeline) :
    (Login a u pw p).1 = { a with username := u, password := pw } := by
  simp only [Login]
  rcases Exec p [(bytes "Action", bytes "Login"), (bytes "Username", u),
    (bytes "Secret", pw)] with ⟨p1, _ | result⟩
  · rfl
  · by_cases he : GoMap.index result (bytes "Response") = bytes "Error" <;> simp [he]

theorem Login_pipeline (a : AMIAdapter) (u pw : Str) (p : Pipeline) :
    (Login a u pw p).2.1 =
      (Exec p [(bytes "Action", bytes "Login"), (bytes "Username", u),
        (bytes "Secret", pw)]).1 := by
  simp only [Login]
  rcases Exec p [(bytes "Action", bytes "Login"), (bytes "Username", u),
    (bytes "Secret", pw)] with ⟨p1, _ | result⟩
  · rfl
  · by_cases he : GoMap.index result (bytes "Response") = bytes "Error" <;> simp [he]

theorem reconnectLoop_sent (dial : Nat → Bool) (a : AMIAdapter) (p : Pipeline) (i n : Nat)
    (h : (reconnectLoop dial a p i n).ending ≠ LoopEnd.gaveUp) :
    (reconnectLoop dial a p i n).sent = p.sent ++
      [[(bytes "Action", bytes "Login"), (bytes "Username", a.username),
        (bytes "Secret", a.password)]] := by
  induction i generalizing n with
  | zero => simp [reconnectLoop] at h
  | succ i ih =>
    by_cases h1 : dial (n + 1) = true
    · have hp := Login_pipeline a a.username a.password p
      have hs := Exec_sent p [(bytes "Action", bytes "Login"), (bytes "Username", a.username),
        (bytes "Secret", a.password)]
      rw [← hp] at hs
      simp only [reconnectLoop, h1, if_true]
      rcases hL : Login a a.username a.password p with ⟨a1, p1, _ | res⟩
      · rw [hL] at hs
        simpa using hs
      · rw [hL] at hs
        by_cases he : res.err.isSome = true
        · simpa [he] using hs
        · simpa [he] using hs
    · have h2 : reconnectLoop dial a p (i + 1) n = reconnectLoop dial a p i (n + 1) := by
        simp [reconnectLoop, h1]
      rw [h2] at h ⊢
      exact ih (n + 1) h

/-- C15: for every username `u` and password `pw`, `Login(u, pw)` passes to `Exec` exactly
the three-field action `{Action: Login, Username: u, Secret: pw}`, which is sent on the
action channel; whether the login succeeds, fails or never gets an answer, the adapter then
stores the credentials `(u, pw)` and its `ip` and channels are unchanged; so every later run
of the reconnect loop that gets a connection (does not give up) runs `Login` with these
credentials again, sending the same action. -/
theorem Login_stores_credentials (a : AMIAdapter) (u pw : Str) (p : Pipeline) :
    (Login a u pw p).2.1 =
      (Exec p [(bytes "Action", bytes "Login"), (bytes "Username", u),
        (bytes "Secret", pw)]).1 ∧
    (Login a u pw p).2.1.sent = p.sent ++
      [[(bytes "Action", bytes "Login"), (bytes "Username", u), (bytes "Secret", pw)]] ∧
    (Login a u pw p).1.username = u ∧ (Login a u pw p).1.password = pw ∧
    (Login a u pw p).1.ip = a.ip ∧ (Login a u pw p).1.chanActions = a.chanActions ∧
    (Login a u pw p).1.chanResponses = a.chanResponses ∧
    (Login a u pw p).1.chanEvents = a.chanEvents ∧
    ∀ (dial : Nat → Bool) (p2 : Pipeline) (i n : Nat),
      (reconnectLoop dial (Login a u pw p).1 p2 i n).ending ≠ LoopEnd.gaveUp →
      (reconnectLoop dial (Login a u pw p).1 p2 i n).sent = p2.sent ++
        [[(bytes "Action", bytes "Login"), (bytes "Username", u), (bytes "Secret", pw)]] := by
  have ha := Login_adapter a u pw p
  have hp := Login_pipeline a u pw p
  refine ⟨hp, ?_, by rw [ha], by rw [ha], by rw [ha], by rw [ha], by rw [ha], by rw [ha], ?_⟩
  · rw [hp, Exec_sent]
  · intro dial p2 i n h
    have := reconnectLoop_sent dial (Login a u pw p).1 p2 i n h
    rw [ha] at this ⊢
    exact this

/-- Witness for C15: a login that never gets an answer, then a reconnect whose second dial
succeeds and whose login the server rejects. -/
theorem Login_stores_credentials_witness :
    (reconnectLoop (fun j => decide (2 ≤ j))
        (Login { ip := bytes "10.0.0.1", username := bytes "old", password := bytes "older",
                 chanActions := 1, chanResponses := 2, chanEvents := 3 }
          (bytes "u") (bytes "pw") { sent := [], responses := [] }).1
        { sent := [], responses := [[(bytes "Response", bytes "Error")]] } 100 0).ending ≠
      LoopEnd.gaveUp ∧
    (reconnectLoop (fun j => decide (2 ≤ j))
        (Login { ip := bytes "10.0.0.1", username := bytes "old", password := bytes "older",
                 chanActions := 1, chanResponses := 2, chanEvents := 3 }
          (bytes "u") (bytes "pw") { sent := [], responses := [] }).1
        { sent := [], responses := [[(bytes "Response", bytes "Error")]] } 100 0).sent =
      [] ++ [[(bytes "Action", bytes "Login"), (bytes "Username", bytes "u"),
        (bytes "Secret", bytes "pw")]] :=
  ⟨by decide,
   (Login_stores_credentials
      { ip := bytes "10.0.0.1", username := bytes "old", password := bytes "older",
        chanActions := 1, chanResponses := 2, chanEvents := 3 }
      (bytes "u") (bytes "pw") { sent := [], responses := [] }).2.2.2.2.2.2.2.2
      (fun j => decide (2 ≤ j))
      { sent := [], responses := [[(bytes "Response", bytes "Error")]] } 100 0 (by decide)⟩

/-! ## Empty values and blank lines -/

/-- C17: when `streamParser` consumes a carriage return in key state while the variable
`value` is empty, it sends nothing and leaves the record in progress unchanged. The variable
`value` holds the value stored last since the previous carriage return met in key state, or
nothing: it is emptied by a carriage return in key state, set to the stored value by a
carriage return in value state, and kept by every other byte. So the fields are carried into
the next sent record: the input `A: \r\n\r\nB: x\r\n\r\n` sends exactly one record,
`{A: "", B: x}`. -/
theorem step_cr_keeps_record :
    (∀ s : PState, s.state = 0 → s.value = [] →
      (step s 13).2 = none ∧ (step s 13).1.data = s.data) ∧
    (∀ s : PState, s.state = 0 → (step s 13).1.value = []) ∧
    (∀ s : PState, s.state = 1 →
      (step s 13).1.value = s.wordBuf ∧
        (step s 13).1.data = GoMap.assign s.data s.key s.wordBuf) ∧
    (∀ (s : PState) (b : Byte), b ≠ 13 → (step s b).1.value = s.value) ∧
    streamParser (bytes "A: \r\n\r\nB: x\r\n\r\n") =
      [[(bytes "A", []), (bytes "B", bytes "x")]] := by
  refine ⟨?_, ?_, ?_, ?_, by decide⟩
  · intro s hs hv
    simp [step, hs, hv]
  · intro s hs
    simp only [step]
    split_ifs
    all_goals simp_all
  · intro s hs
    simp [step, hs]
  · intro s b hb
    exact (step_no_cr s b hb).2

/-- Witness for C17: the state reached after `A: \r\n`. -/
theorem step_cr_keeps_record_witness :
    (step (feed PState.init (bytes "A: \r\n")).1 13).2 = none ∧
    (step (feed PState.init (bytes "A: \r\n")).1 13).1.data =
      (feed PState.init (bytes "A: \r\n")).1.data :=
  step_cr_keeps_record.1 (feed PState.init (bytes "A: \r\n")).1 (by decide) (by decide)

/-! ## Spaces and carriage returns -/

/-- C18: for every input byte sequence fed to `streamParser` from its initial state, no key
of any sent record contains a space or a carriage-return byte, and no value contains a
carriage-return byte; and a space met in key state that does not immediately follow a colon
changes neither the word buffer nor any other variable but the two byte variables. -/
theorem streamParser_no_space_cr :
    (∀ (input : List Byte) (r : GoMap), r ∈ streamParser input →
      ∀ e ∈ r, (32 ∉ e.1 ∧ 13 ∉ e.1) ∧ 13 ∉ e.2) ∧
    (∀ s : PState, s.state = 0 → s.curByte ≠ 58 →
      step s 32 = ({ s with lastByte := s.curByte, curByte := 32 }, none)) := by
  refine ⟨?_, ?_⟩
  · intro input r hr e he
    have hinv := feed_invariant
      (fun s => (32 ∉ s.key ∧ 13 ∉ s.key) ∧ (s.state ≠ 1 → 32 ∉ s.wordBuf) ∧ 13 ∉ s.wordBuf ∧
        ∀ e ∈ s.data, (32 ∉ e.1 ∧ 13 ∉ e.1) ∧ 13 ∉ e.2)
      (fun r => ∀ e ∈ r, (32 ∉ e.1 ∧ 13 ∉ e.1) ∧ 13 ∉ e.2)
      (by
        intro s b ⟨hk, hw0, hw, hd⟩
        simp only [step]
        split_ifs with h1 h2 h3 h4 h5 h6 h7 h8
        · exact ⟨⟨hk, hw0, hw, hd⟩, by simp⟩
        · exact ⟨⟨⟨hw0 (by simp [h2]), hw⟩, by simp, by simp, hd⟩, by simp⟩
        · exact ⟨⟨hk, hw0, hw, hd⟩, by simp⟩
        · refine ⟨⟨by simp, by simp, by simp, by simp⟩, ?_⟩
          intro r hr
          simp only [Option.some.injEq] at hr
          rw [← hr]; exact hd
        · exact ⟨⟨by simp, by simp, by simp, hd⟩, by simp⟩
        · refine ⟨⟨hk, ?_, ?_, hd⟩, by simp⟩
          · intro _
            simp only [List.mem_append, List.mem_singleton, not_or]
            exact ⟨hw0 (by simp [h2]), fun h => h3 h.symm⟩
          · simp only [List.mem_append, List.mem_singleton, not_or]
            exact ⟨hw, fun h => h5 h.symm⟩
        · refine ⟨⟨hk, by simp, by simp, ?_⟩, by simp⟩
          intro e he
          rcases GoMap.mem_assign _ _ _ _ he with h | h
          · exact hd e h
          · rw [h]; exact ⟨hk, hw⟩
        · refine ⟨⟨hk, ?_, ?_, hd⟩, by simp⟩
          · intro hne
            exact absurd h7 hne
          · simp only [List.mem_append, List.mem_singleton, not_or]
            exact ⟨hw, fun h => h8 h.symm⟩
        · exact ⟨⟨hk, hw0, hw, hd⟩, by simp⟩)
      input PState.init (by simp [PState.init])
    exact hinv.2 r hr e he
  · intro s hs hc
    simp [step, hs, hc]

/-- Witness for C18: spaces and a colon typed inside the key of `a b :c: d e`. -/
theorem streamParser_no_space_cr_witness :
    [(bytes "abc", bytes "d e")] ∈ streamParser (bytes "a b :c: d e\r\n\r\n") ∧
    (32 ∉ bytes "abc" ∧ 13 ∉ bytes "abc") ∧ 13 ∉ bytes "d e" :=
  ⟨by decide,
   streamParser_no_space_cr.1 (bytes "a b :c: d e\r\n\r\n") [(bytes "abc", bytes "d e")]
    (by decide) (bytes "abc", bytes "d e") (by decide)⟩

end AmiConnect
